import Mathlib

/-!
Verification of the Grimoire context-retrieval core (src/backend/context_service.py)
against its natural-language specification.

The Python module is shallowly embedded: floats are modelled by rationals,
numpy vectors by lists of rationals, Python dicts by association lists
(first-match lookup, with appends performed only at fresh keys unless noted),
and raising code by Except-valued functions.  External collaborators
(the sentence-transformers embedder, the FAISS backend, the cross-encoder
reranker, sha1) and purely heuristic leaf functions whose behaviour none of
the verified properties depend on are passed in as explicit function
parameters, so every theorem quantifies over all of their behaviours.
-/

namespace Grimoire

/-- A dense embedding vector: a numpy float32 array modelled as a list of rationals. -/
abbrev Vec := List ℚ

/-- Pointwise vector addition (numpy `running += vec` on equal-shape arrays). -/
def vecAdd (a b : Vec) : Vec := List.zipWith (fun x y => x + y) a b

/-- Pointwise scalar multiplication (numpy `vec * c`). -/
def vecScale (c : ℚ) (v : Vec) : Vec := v.map (fun x => c * x)

/-- Model of `np.zeros_like(sample)`. -/
def zerosLike (v : Vec) : Vec := v.map (fun _ => 0)

/-- Model of `_dot`: 0.0 when either array is empty, else the inner product. -/
def dotQ (a b : Vec) : ℚ :=
  if a = [] ∨ b = [] then 0 else (List.zipWith (fun x y => x * y) a b).sum

/-- Metadata record stored for one chunk in `ContextIndex._chunk`
(the dict built by `ContextService.index_note`).  `quality` is an `Option`
because legacy persisted records may lack the field (`meta.get("quality")`
returning a non-number is exactly the `none` case). -/
structure ChunkMeta where
  note_id : String
  chunk_id : String
  text : String
  quality : Option ℚ
  dense : List ℚ
  concepts : List String
deriving DecidableEq, Repr

/-- The chunk table `ContextIndex._chunk`: chunk id to metadata. -/
abbrev ChunkTable := List (String × ChunkMeta)

/-- Helper: first-match association-list lookup characterised by membership. -/
theorem lookup_isSome_iff {α β : Type} [BEq α] [LawfulBEq α]
    (l : List (α × β)) (a : α) :
    (l.lookup a).isSome ↔ ∃ b, (a, b) ∈ l := by
  induction l with
  | nil => simp [List.lookup]
  | cons p rest ih =>
    obtain ⟨k, v⟩ := p
    by_cases h : a = k
    · subst h
      simp [List.lookup]
    · have hbeq : (a == k) = false := by
        simp [h]
      simp only [List.lookup, hbeq, List.mem_cons]
      rw [ih]
      constructor
      · rintro ⟨b, hb⟩
        exact ⟨b, Or.inr hb⟩
      · rintro ⟨b, hb | hb⟩
        · cases hb
          exact absurd rfl h
        · exact ⟨b, hb⟩

/-! ## Computable string primitives

Python string operations are re-implemented over `String.data` by structural
recursion so that concrete witnesses evaluate inside the kernel. -/

/-- Model of Python `s.split(sep)` for a one-character separator. -/
def splitOnCharAux (sep : Char) : List Char → List Char → List (List Char)
  | [], acc => [acc.reverse]
  | c :: rest, acc =>
    if c = sep then acc.reverse :: splitOnCharAux sep rest []
    else splitOnCharAux sep rest (c :: acc)

/-- Model of Python `s.split(sep)` for a one-character separator (wrapper). -/
def splitOnChar (s : String) (sep : Char) : List String :=
  (splitOnCharAux sep s.data []).map (fun cs => String.mk cs)

/-- Value of an ASCII digit character, `none` otherwise. -/
def digitVal (c : Char) : Option Nat :=
  if '0' ≤ c ∧ c ≤ '9' then some (c.toNat - 48) else none

/-- Parse a nonempty all-digit character run as a natural number. -/
def digitsToNat : List Char → Option Nat
  | [] => none
  | cs => go cs 0
where
  go : List Char → Nat → Option Nat
    | [], acc => some acc
    | c :: rest, acc =>
      match digitVal c with
      | some d => go rest (acc * 10 + d)
      | none => none

/-- Model of Python `int(s)` on the plain decimal forms produced by this
code base (an optional sign followed by digits; generated chunk-id suffixes
are always plain digit runs). -/
def toIntChars : List Char → Option Int
  | '-' :: rest => (digitsToNat rest).map (fun n => -(n : Int))
  | '+' :: rest => (digitsToNat rest).map (fun n => (n : Int))
  | cs => (digitsToNat cs).map (fun n => (n : Int))

/-- Python whitespace recognised by `str.strip()` (ASCII subset). -/
def isPyWS (c : Char) : Bool :=
  c = ' ' ∨ c = '\t' ∨ c = '\n' ∨ c = '\r' ∨ c = Char.ofNat 11 ∨ c = Char.ofNat 12

/-- Model of Python `s.strip()`. -/
def pyStrip (s : String) : String :=
  String.mk (((s.data.dropWhile isPyWS).reverse.dropWhile isPyWS).reverse)

/-- Model of Python `s.lstrip()`. -/
def pyLStrip (s : String) : String :=
  String.mk (s.data.dropWhile isPyWS)

/-- Model of Python slicing `s[:n]` (by code points). -/
def pyTake (s : String) (n : Nat) : String := String.mk (s.data.take n)

/-- Model of Python slicing `s[-n:]` (by code points). -/
def pyTakeRight (s : String) (n : Nat) : String :=
  String.mk (s.data.drop (s.data.length - n))

/-- Model of Python `c.lower()` on ASCII letters. -/
def lowerChar (c : Char) : Char :=
  if 'A' ≤ c ∧ c ≤ 'Z' then Char.ofNat (c.toNat + 32) else c

/-- Model of Python `s.lower()` (ASCII). -/
def pyLower (s : String) : String := String.mk (s.data.map lowerChar)

/-- Substring test on character lists (Python `needle in hay`). -/
def isSubChars (needle : List Char) : List Char → Bool
  | [] => needle.isEmpty
  | c :: rest => needle.isPrefixOf (c :: rest) || isSubChars needle rest

/-- Model of Python `needle in hay`. -/
def containsSub (hay needle : String) : Bool :=
  isSubChars needle.data hay.data

/-- Model of Python `s.startswith(p)`. -/
def pyStartsWith (s p : String) : Bool := p.data.isPrefixOf s.data

/-! ## Prefix-embedding cache (`ContextIndex.prefix_embedding`,
`ContextIndex._rebuild_note_prefix_cache`) -/

/-- Model of `int(str(chunk_id).split(":")[-1])`: parse the final
colon-separated component of a chunk id as an integer; `none` models the
`except` branch. -/
def chunkIdLastIndex (chunk_id : String) : Option Int :=
  ((splitOnChar chunk_id ':').getLast?).bind (fun s => toIntChars s.data)

/-- Python dict lookup for the per-note `vec_map` built by
`_rebuild_note_prefix_cache`: on duplicate keys the later binding wins,
hence lookup on the reversed list. -/
def dictGet (l : List (Int × Vec)) (i : Int) : Option Vec :=
  l.reverse.lookup i

/-- The `(block index, normalised vector)` pairs collected for one note by
`_rebuild_note_prefix_cache` while walking `self._chunk.items()`:
chunks of that note with a non-empty `dense` field, a parseable final index,
and a non-empty normalised vector.  The normaliser `nd` stands for
`_normalize_dense`, which the code applies to each stored embedding. -/
def noteVecEntries (nd : Vec → Vec) (table : ChunkTable) (note : String) :
    List (Int × Vec) :=
  table.filterMap (fun kv =>
    if kv.2.note_id = note ∧ kv.2.note_id ≠ "" ∧ kv.2.dense ≠ [] then
      match chunkIdLastIndex kv.1 with
      | some idx =>
        let v := nd kv.2.dense
        if v ≠ [] then some (idx, v) else none
      | none => none
    else none)

/-- One step of the running-sum loop body in `_rebuild_note_prefix_cache`. -/
def stepAcc (get : Int → Option Vec) (a : Vec) (i : Int) : Vec :=
  match get i with
  | some v => vecAdd a v
  | none => a

/-- One step of the running-count loop body. -/
def stepCnt (get : Int → Option Vec) (c : Nat) (i : Int) : Nat :=
  match get i with
  | some _ => c + 1
  | none => c

/-- The `for i in range(0, max_idx + 2)` loop of `_rebuild_note_prefix_cache`:
before visiting index `i` it appends the running sum and count, then adds
`vec_map.get(i)` into the running state when present. -/
def prefixLoop (get : Int → Option Vec) (running : Vec) (cnt : Nat) :
    List Int → List Vec × List Nat
  | [] => ([], [])
  | i :: rest =>
    let tail := prefixLoop get (stepAcc get running i) (stepCnt get cnt i) rest
    (running :: tail.1, cnt :: tail.2)

/-- The list `[0, 1, ..., n-1]` as integers (`range(0, n)`). -/
def intRange (n : Nat) : List Int :=
  (List.range n).map Int.ofNat

/-- Left fold of `max`, modelling Python `max` over a nonempty key list
with explicit start value. -/
def listMaxInt (l : List Int) (d : Int) : Int := l.foldl max d

/-- The `sums`/`counts` lists `_rebuild_note_prefix_cache` stores for a note,
as a function of that note's collected `vec_map` entries: `none` when the
note contributes no vectors (`if not vec_map: continue`, so the note is
absent from the cache).  `max_idx` is the maximum key of `vec_map`, and the
running sum starts from `np.zeros_like(sample)` for the first collected
vector. -/
def notePrefixListsOf (entries : List (Int × Vec)) :
    Option (List Vec × List Nat) :=
  match entries with
  | [] => none
  | e0 :: rest =>
    let maxIdx : Int := listMaxInt (rest.map Prod.fst) e0.1
    let n : Nat := (maxIdx + 2).toNat
    some (prefixLoop (dictGet (e0 :: rest)) (zerosLike e0.2) 0 (intRange n))

/-- Body of `_prefix_embedding_from_cache` once the note's `sums`/`counts`
lists have been fetched: the `if not sums or not counts` guard, the clamp of
`block_index` to `len(sums) - 1`, the `counts[block_index] <= 0` guard, and
the final `_normalize_dense(sums[block_index])`. -/
def pickFromLists (nd : Vec → Vec) (sums : List Vec) (counts : List Nat)
    (blockIndex : Int) : Option Vec :=
  if sums = [] ∨ counts = [] then none
  else
    let bi : Int :=
      if blockIndex ≥ (sums.length : Int) then (sums.length : Int) - 1
      else blockIndex
    if bi ≤ 0 then none
    else if counts.getD bi.toNat 0 ≤ 0 then none
    else some (nd (sums.getD bi.toNat []))

/-- Core of `ContextIndex._prefix_embedding_from_cache`, as a function of the
note's cache entry. -/
def cachedPrefixVec (nd : Vec → Vec) (entries : List (Int × Vec))
    (blockIndex : Int) : Option Vec :=
  match notePrefixListsOf entries with
  | none => none
  | some sc => pickFromLists nd sc.1 sc.2 blockIndex

/-- Model of `ContextIndex._prefix_embedding_from_cache`. -/
def prefixEmbeddingFromCache (nd : Vec → Vec) (table : ChunkTable)
    (note : String) (blockIndex : Int) : Option Vec :=
  cachedPrefixVec nd (noteVecEntries nd table note) blockIndex

/-- Model of `ContextIndex.prefix_embedding`. -/
def prefixEmbedding (nd : Vec → Vec) (table : ChunkTable)
    (note : String) (blockIndex : Int) : Option Vec :=
  if blockIndex ≤ 0 then none
  else prefixEmbeddingFromCache nd table note blockIndex

/-- Specification-side sum for claim C4: the sum, in increasing block order,
of the normalised embeddings of the blocks with index strictly below `k`,
starting from the zero vector of the corpus embedding width. -/
def specPrefixSum (get : Int → Option Vec) (dim : Nat) (k : Nat) : Vec :=
  (intRange k).foldl (stepAcc get) (List.replicate dim 0)

theorem prefixLoop_fst_length (get : Int → Option Vec) (r : Vec) (c : Nat)
    (is : List Int) : (prefixLoop get r c is).1.length = is.length := by
  induction is generalizing r c with
  | nil => rfl
  | cons i rest ih => simp [prefixLoop, ih]

theorem prefixLoop_snd_length (get : Int → Option Vec) (r : Vec) (c : Nat)
    (is : List Int) : (prefixLoop get r c is).2.length = is.length := by
  induction is generalizing r c with
  | nil => rfl
  | cons i rest ih => simp [prefixLoop, ih]

theorem prefixLoop_fst_get (get : Int → Option Vec) (r : Vec) (c : Nat)
    (is : List Int) (j : Nat) (h : j < is.length) :
    (prefixLoop get r c is).1.get? j = some ((is.take j).foldl (stepAcc get) r) := by
  induction is generalizing r c j with
  | nil => simp at h
  | cons i rest ih =>
    cases j with
    | zero => simp [prefixLoop]
    | succ j =>
      simp only [List.length_cons, Nat.succ_lt_succ_iff] at h
      simp only [prefixLoop, List.get?_cons_succ, List.take_succ_cons, List.foldl_cons]
      exact ih (stepAcc get r i) (stepCnt get c i) j h

theorem prefixLoop_snd_get (get : Int → Option Vec) (r : Vec) (c : Nat)
    (is : List Int) (j : Nat) (h : j < is.length) :
    (prefixLoop get r c is).2.get? j = some ((is.take j).foldl (stepCnt get) c) := by
  induction is generalizing r c j with
  | nil => simp at h
  | cons i rest ih =>
    cases j with
    | zero => simp [prefixLoop]
    | succ j =>
      simp only [List.length_cons, Nat.succ_lt_succ_iff] at h
      simp only [prefixLoop, List.get?_cons_succ, List.take_succ_cons, List.foldl_cons]
      exact ih (stepAcc get r i) (stepCnt get c i) j h

theorem le_foldl_stepCnt (get : Int → Option Vec) (c : Nat) (is : List Int) :
    c ≤ is.foldl (stepCnt get) c := by
  induction is generalizing c with
  | nil => exact Nat.le_refl c
  | cons i rest ih =>
    refine Nat.le_trans ?_ (ih (stepCnt get c i))
    unfold stepCnt
    cases get i <;> simp

theorem foldl_stepCnt_pos (get : Int → Option Vec) (c : Nat) (is : List Int)
    (i₀ : Int) (hmem : i₀ ∈ is) (hsome : (get i₀).isSome) :
    0 < is.foldl (stepCnt get) c := by
  induction is generalizing c with
  | nil => simp at hmem
  | cons i rest ih =>
    rcases List.mem_cons.mp hmem with h | h
    · subst h
      refine Nat.lt_of_lt_of_le ?_ (le_foldl_stepCnt get _ rest)
      unfold stepCnt
      cases hg : get i₀
      · rw [hg] at hsome; simp at hsome
      · simp
    · exact ih (stepCnt get c i) h

theorem foldl_stepCnt_zero (get : Int → Option Vec) (is : List Int)
    (hnone : ∀ i ∈ is, get i = none) :
    is.foldl (stepCnt get) 0 = 0 := by
  induction is with
  | nil => rfl
  | cons i rest ih =>
    have h1 : get i = none := hnone i (List.mem_cons_self i rest)
    simp only [List.foldl_cons, stepCnt, h1]
    exact ih (fun j hj => hnone j (List.mem_cons_of_mem i hj))

theorem foldl_stepAcc_none (get : Int → Option Vec) (r : Vec) (is : List Int)
    (hnone : ∀ i ∈ is, get i = none) :
    is.foldl (stepAcc get) r = r := by
  induction is generalizing r with
  | nil => rfl
  | cons i rest ih =>
    have h1 : get i = none := hnone i (List.mem_cons_self i rest)
    simp only [List.foldl_cons, stepAcc, h1]
    exact ih r (fun j hj => hnone j (List.mem_cons_of_mem i hj))

theorem le_listMaxInt_start (l : List Int) (d : Int) : d ≤ listMaxInt l d := by
  induction l generalizing d with
  | nil => exact le_refl d
  | cons x rest ih =>
    exact le_trans (le_max_left d x) (ih (max d x))

theorem le_listMaxInt_mem (l : List Int) (d : Int) (x : Int) (hx : x ∈ l) :
    x ≤ listMaxInt l d := by
  induction l generalizing d with
  | nil => simp at hx
  | cons y rest ih =>
    rcases List.mem_cons.mp hx with h | h
    · subst h
      exact le_trans (le_max_right d x) (le_listMaxInt_start rest (max d x))
    · exact ih (max d y) h

theorem dictGet_isSome_of_mem (entries : List (Int × Vec)) (i : Int) (v : Vec)
    (h : (i, v) ∈ entries) : (dictGet entries i).isSome := by
  unfold dictGet
  rw [lookup_isSome_iff]
  exact ⟨v, List.mem_reverse.mpr h⟩

theorem dictGet_eq_none (entries : List (Int × Vec)) (i : Int)
    (h : ∀ p ∈ entries, p.1 ≠ i) : dictGet entries i = none := by
  cases hg : dictGet entries i with
  | none => rfl
  | some v =>
    have hs : (dictGet entries i).isSome := by rw [hg]; rfl
    unfold dictGet at hs
    rw [lookup_isSome_iff] at hs
    obtain ⟨b, hb⟩ := hs
    exact absurd rfl (h (i, b) (List.mem_reverse.mp hb))

theorem zerosLike_eq_replicate (v : Vec) :
    zerosLike v = List.replicate v.length 0 := by
  unfold zerosLike
  induction v with
  | nil => rfl
  | cons x rest ih =>
    rw [List.map_cons, List.length_cons, List.replicate_succ, ih]

theorem intRange_take (n j : Nat) (h : j ≤ n) :
    (intRange n).take j = intRange j := by
  simp only [intRange, ← List.map_take, List.take_range, Nat.min_eq_left h]

theorem getD_of_get? {α : Type} (l : List α) (j : Nat) (x d : α)
    (h : l.get? j = some x) : l.getD j d = x := by
  rw [List.getD_eq_getElem?_getD, ← List.get?_eq_getElem?, h]
  rfl

theorem intRange_succ (n : Nat) :
    intRange (n + 1) = intRange n ++ [Int.ofNat n] := by
  unfold intRange
  rw [List.range_succ, List.map_append]
  rfl

theorem foldl_stepAcc_high (get : Int → Option Vec) (r : Vec) (a : Nat)
    (hnone : ∀ i : Int, (a : Int) ≤ i → get i = none) :
    ∀ b, a ≤ b → (intRange b).foldl (stepAcc get) r = (intRange a).foldl (stepAcc get) r := by
  intro b
  induction b with
  | zero =>
    intro h
    have ha : a = 0 := Nat.le_zero.mp h
    subst ha
    rfl
  | succ b ih =>
    intro h
    rcases Nat.lt_or_ge a (b + 1) with hlt | hge
    · have hab : a ≤ b := Nat.lt_succ_iff.mp hlt
      rw [intRange_succ, List.foldl_append]
      have hzero : get (Int.ofNat b) = none := by
        refine hnone (Int.ofNat b) ?_
        rw [Int.ofNat_eq_natCast]
        exact_mod_cast hab
      simp only [List.foldl_cons, List.foldl_nil, stepAcc, hzero]
      exact ih hab
    · have ha : a = b + 1 := le_antisymm h hge
      subst ha
      rfl

theorem cachedPrefixVec_pos (nd : Vec → Vec) (entries : List (Int × Vec))
    (k : Int) (L : Nat) (hk : 0 < k)
    (hkeys : ∀ p ∈ entries, 0 ≤ p.1)
    (hdim : ∀ p ∈ entries, p.2.length = L)
    (hwit : ∃ p ∈ entries, p.1 < k) :
    cachedPrefixVec nd entries k =
      some (nd (specPrefixSum (dictGet entries) L k.toNat)) := by
  obtain ⟨p₀, hp₀, hp₀k⟩ := hwit
  obtain ⟨e0, rest, rfl⟩ : ∃ e0 rest, entries = e0 :: rest := by
    cases entries with
    | nil => simp at hp₀
    | cons a l => exact ⟨a, l, rfl⟩
  have hp₀0 : 0 ≤ p₀.1 := hkeys p₀ hp₀
  set get := dictGet (e0 :: rest) with hget
  set maxIdx := listMaxInt (rest.map Prod.fst) e0.1 with hmaxIdx
  set n := (maxIdx + 2).toNat with hn
  have hmax : ∀ p ∈ e0 :: rest, p.1 ≤ maxIdx := by
    intro p hp
    rcases List.mem_cons.mp hp with h | h
    · subst h; exact le_listMaxInt_start _ _
    · exact le_listMaxInt_mem _ _ _ (List.mem_map_of_mem Prod.fst h)
  have hmax0 : 0 ≤ maxIdx := le_trans hp₀0 (hmax p₀ hp₀)
  have hnval : (n : Int) = maxIdx + 2 := Int.toNat_of_nonneg (by omega)
  have hn2 : 2 ≤ n := by omega
  set is := intRange n with his
  have hislen : is.length = n := by simp [his, intRange]
  set sums := (prefixLoop get (zerosLike e0.2) 0 is).1 with hsums
  set counts := (prefixLoop get (zerosLike e0.2) 0 is).2 with hcounts
  have hsumslen : sums.length = n := by rw [hsums, prefixLoop_fst_length, hislen]
  have hcountslen : counts.length = n := by rw [hcounts, prefixLoop_snd_length, hislen]
  have hzeros : zerosLike e0.2 = List.replicate L 0 := by
    rw [zerosLike_eq_replicate, hdim e0 (List.mem_cons_self _ _)]
  have hred : cachedPrefixVec nd (e0 :: rest) k = pickFromLists nd sums counts k := rfl
  rw [hred]
  unfold pickFromLists
  have hsne : ¬(sums = [] ∨ counts = []) := by
    push_neg
    constructor
    · intro hcontra; rw [hcontra] at hsumslen; simp at hsumslen; omega
    · intro hcontra; rw [hcontra] at hcountslen; simp at hcountslen; omega
  rw [if_neg hsne]
  have hgetnone : ∀ i : Int, maxIdx < i → get i = none := by
    intro i hi
    refine dictGet_eq_none _ _ ?_
    intro p hp hpi
    have := hmax p hp
    omega
  by_cases hkn : k ≥ (sums.length : Int)
  · simp only [if_pos hkn]
    have hbi_pos : ¬ ((sums.length : Int) - 1 ≤ 0) := by
      rw [hsumslen]; omega
    rw [if_neg hbi_pos]
    have htn : ((sums.length : Int) - 1).toNat = n - 1 := by rw [hsumslen]; omega
    rw [htn]
    have htake : is.take (n - 1) = intRange (n - 1) := by
      rw [his]; exact intRange_take n (n - 1) (by omega)
    have hcget : counts.getD (n - 1) 0 = (intRange (n - 1)).foldl (stepCnt get) 0 := by
      refine getD_of_get? _ _ _ _ ?_
      rw [hcounts, prefixLoop_snd_get get _ 0 is (n - 1) (by omega), htake]
    have hp₀mem : p₀.1 ∈ intRange (n - 1) := by
      have h1 : p₀.1 ≤ maxIdx := hmax p₀ hp₀
      have h2 : p₀.1.toNat < n - 1 := by omega
      refine List.mem_map.mpr ⟨p₀.1.toNat, List.mem_range.mpr h2, ?_⟩
      rw [Int.ofNat_eq_natCast]
      omega
    have hsomep₀ : (get p₀.1).isSome := by
      refine dictGet_isSome_of_mem _ _ p₀.2 ?_
      simpa using hp₀
    have hcpos : 0 < counts.getD (n - 1) 0 := by
      rw [hcget]
      exact foldl_stepCnt_pos get 0 _ p₀.1 hp₀mem hsomep₀
    have hcne : ¬ (counts.getD (n - 1) 0 ≤ 0) := by omega
    rw [if_neg hcne]
    have hsget : sums.getD (n - 1) [] = (intRange (n - 1)).foldl (stepAcc get) (zerosLike e0.2) := by
      refine getD_of_get? _ _ _ _ ?_
      rw [hsums, prefixLoop_fst_get get _ 0 is (n - 1) (by omega), htake]
    rw [hsget]
    unfold specPrefixSum
    rw [← hzeros]
    have hknat : n - 1 ≤ k.toNat := by
      rw [hsumslen] at hkn
      omega
    rw [foldl_stepAcc_high get (zerosLike e0.2) (n - 1)
      (fun i hi => hgetnone i (by omega)) k.toNat hknat]
  · simp only [if_neg hkn]
    rw [if_neg (show ¬ k ≤ 0 by omega)]
    have hklt : k.toNat < n := by
      rw [hsumslen] at hkn
      omega
    have htake : is.take k.toNat = intRange k.toNat := by
      rw [his]; exact intRange_take n k.toNat (by omega)
    have hcget : counts.getD k.toNat 0 = (intRange k.toNat).foldl (stepCnt get) 0 := by
      refine getD_of_get? _ _ _ _ ?_
      rw [hcounts, prefixLoop_snd_get get _ 0 is k.toNat (by omega), htake]
    have hp₀mem : p₀.1 ∈ intRange k.toNat := by
      have h2 : p₀.1.toNat < k.toNat := by omega
      refine List.mem_map.mpr ⟨p₀.1.toNat, List.mem_range.mpr h2, ?_⟩
      rw [Int.ofNat_eq_natCast]
      omega
    have hsomep₀ : (get p₀.1).isSome := by
      refine dictGet_isSome_of_mem _ _ p₀.2 ?_
      simpa using hp₀
    have hcpos : 0 < counts.getD k.toNat 0 := by
      rw [hcget]
      exact foldl_stepCnt_pos get 0 _ p₀.1 hp₀mem hsomep₀
    have hcne : ¬ (counts.getD k.toNat 0 ≤ 0) := by omega
    rw [if_neg hcne]
    have hsget : sums.getD k.toNat [] = (intRange k.toNat).foldl (stepAcc get) (zerosLike e0.2) := by
      refine getD_of_get? _ _ _ _ ?_
      rw [hsums, prefixLoop_fst_get get _ 0 is k.toNat (by omega), htake]
    rw [hsget]
    unfold specPrefixSum
    rw [← hzeros]

theorem cachedPrefixVec_none_of_no_prior (nd : Vec → Vec)
    (entries : List (Int × Vec)) (k : Int)
    (hnone : ∀ p ∈ entries, ¬ p.1 < k) :
    cachedPrefixVec nd entries k = none := by
  cases entries with
  | nil => rfl
  | cons e0 rest =>
    set get := dictGet (e0 :: rest) with hget
    set maxIdx := listMaxInt (rest.map Prod.fst) e0.1 with hmaxIdx
    set n := (maxIdx + 2).toNat with hn
    set is := intRange n with his
    have hislen : is.length = n := by simp [his, intRange]
    set sums := (prefixLoop get (zerosLike e0.2) 0 is).1 with hsums
    set counts := (prefixLoop get (zerosLike e0.2) 0 is).2 with hcounts
    have hsumslen : sums.length = n := by rw [hsums, prefixLoop_fst_length, hislen]
    have hcountslen : counts.length = n := by rw [hcounts, prefixLoop_snd_length, hislen]
    have hred : cachedPrefixVec nd (e0 :: rest) k = pickFromLists nd sums counts k := rfl
    rw [hred]
    unfold pickFromLists
    by_cases hse : sums = [] ∨ counts = []
    · rw [if_pos hse]
    · rw [if_neg hse]
      have hnpos : 0 < n := by
        push_neg at hse
        have := hse.1
        rcases Nat.eq_zero_or_pos n with h0 | hpos
        · rw [h0] at hsumslen
          exact absurd (List.length_eq_zero.mp hsumslen) this
        · exact hpos
      have hgetzero : ∀ (m : Nat) (_ : (m : Int) ≤ k),
          (intRange m).foldl (stepCnt get) 0 = 0 := by
        intro m hm
        refine foldl_stepCnt_zero get _ ?_
        intro i hi
        refine dictGet_eq_none _ _ ?_
        intro p hp hpi
        obtain ⟨j, hj, hji⟩ := List.mem_map.mp hi
        have hjm : j < m := List.mem_range.mp hj
        rw [Int.ofNat_eq_natCast] at hji
        have : p.1 < k := by omega
        exact hnone p hp this
      by_cases hkn : k ≥ (sums.length : Int)
      · simp only [if_pos hkn]
        by_cases hbi : (sums.length : Int) - 1 ≤ 0
        · rw [if_pos hbi]
        · rw [if_neg hbi]
          have hn2 : 2 ≤ n := by rw [hsumslen] at hbi; omega
          have htn : ((sums.length : Int) - 1).toNat = n - 1 := by rw [hsumslen]; omega
          rw [htn]
          have htake : is.take (n - 1) = intRange (n - 1) := by
            rw [his]; exact intRange_take n (n - 1) (by omega)
          have hcget : counts.getD (n - 1) 0 = (intRange (n - 1)).foldl (stepCnt get) 0 := by
            refine getD_of_get? _ _ _ _ ?_
            rw [hcounts, prefixLoop_snd_get get _ 0 is (n - 1) (by omega), htake]
          have hzero : counts.getD (n - 1) 0 = 0 := by
            rw [hcget]
            refine hgetzero (n - 1) ?_
            rw [hsumslen] at hkn
            omega
          have hcle : counts.getD (n - 1) 0 ≤ 0 := by omega
          rw [if_pos hcle]
      · simp only [if_neg hkn]
        by_cases hk0 : k ≤ 0
        · rw [if_pos hk0]
        · rw [if_neg hk0]
          have hklt : k.toNat < n := by rw [hsumslen] at hkn; omega
          have htake : is.take k.toNat = intRange k.toNat := by
            rw [his]; exact intRange_take n k.toNat (by omega)
          have hcget : counts.getD k.toNat 0 = (intRange k.toNat).foldl (stepCnt get) 0 := by
            refine getD_of_get? _ _ _ _ ?_
            rw [hcounts, prefixLoop_snd_get get _ 0 is k.toNat (by omega), htake]
          have hzero : counts.getD k.toNat 0 = 0 := by
            rw [hcget]
            exact hgetzero k.toNat (by omega)
          have hcle : counts.getD k.toNat 0 ≤ 0 := by omega
          rw [if_pos hcle]

/-- C4: for every note in the chunk table whose collected per-block
normalised embeddings all share one width `L` and carry nonnegative block
indexes, `prefix_embedding(note, k)` equals the normalisation of the sum of
the normalised embeddings of the blocks with index strictly below `k`
whenever `k > 0` and at least one block before `k` has an embedding, and it
returns `none` when `k ≤ 0` or when no block before `k` has an embedding. -/
theorem prefix_embedding_matches_spec
    (nd : Vec → Vec) (table : ChunkTable) (note : String) (k : Int) (L : Nat)
    (hkeys : ∀ p ∈ noteVecEntries nd table note, 0 ≤ p.1)
    (hdim : ∀ p ∈ noteVecEntries nd table note, p.2.length = L) :
    (0 < k → (∃ p ∈ noteVecEntries nd table note, p.1 < k) →
      prefixEmbedding nd table note k =
        some (nd (specPrefixSum (dictGet (noteVecEntries nd table note)) L k.toNat))) ∧
    (k ≤ 0 → prefixEmbedding nd table note k = none) ∧
    ((∀ p ∈ noteVecEntries nd table note, ¬ p.1 < k) →
      prefixEmbedding nd table note k = none) := by
  refine ⟨?_, ?_, ?_⟩
  · intro hk hwit
    unfold prefixEmbedding
    rw [if_neg (show ¬ k ≤ 0 by omega)]
    unfold prefixEmbeddingFromCache
    exact cachedPrefixVec_pos nd _ k L hk hkeys hdim hwit
  · intro hk
    unfold prefixEmbedding
    rw [if_pos hk]
  · intro hnone
    unfold prefixEmbedding
    by_cases hk : k ≤ 0
    · rw [if_pos hk]
    · rw [if_neg hk]
      unfold prefixEmbeddingFromCache
      exact cachedPrefixVec_none_of_no_prior nd _ k hnone

/-- Witness for C4 at a concrete input: a two-chunk note with unit-axis
embeddings, queried at `k = 2`. -/
theorem prefix_embedding_matches_spec_witness :
    (∀ p ∈ noteVecEntries id
        [("n:0:2:0", ⟨"n", "n:0:2:0", "ab", some 1, [1, 0], []⟩),
         ("n:3:5:1", ⟨"n", "n:3:5:1", "cd", some 1, [0, 1], []⟩)] "n", 0 ≤ p.1) ∧
    (∀ p ∈ noteVecEntries id
        [("n:0:2:0", ⟨"n", "n:0:2:0", "ab", some 1, [1, 0], []⟩),
         ("n:3:5:1", ⟨"n", "n:3:5:1", "cd", some 1, [0, 1], []⟩)] "n", p.2.length = 2) ∧
    prefixEmbedding id
        [("n:0:2:0", ⟨"n", "n:0:2:0", "ab", some 1, [1, 0], []⟩),
         ("n:3:5:1", ⟨"n", "n:3:5:1", "cd", some 1, [0, 1], []⟩)] "n" 2 =
      some (id (specPrefixSum
        (dictGet (noteVecEntries id
          [("n:0:2:0", ⟨"n", "n:0:2:0", "ab", some 1, [1, 0], []⟩),
           ("n:3:5:1", ⟨"n", "n:3:5:1", "cd", some 1, [0, 1], []⟩)] "n")) 2 (2 : Int).toNat)) := by
  refine ⟨by decide, by decide, ?_⟩
  exact (prefix_embedding_matches_spec id _ "n" 2 2 (by decide) (by decide)).1
    (by decide) (by decide)

/-! ## Id-map repair (`ContextIndex._repair_chunk_id_mapping`)

The persisted maps `chunk_id_to_int` / `int_to_chunk_id` are modelled as
association lists.  The Python `int_to_chunk_id` dict is keyed by the decimal
string of the integer id; since Python `str` is injective on `int`, the map
is modelled keyed by the integer itself. -/

/-- Smallest signed 64-bit integer (`min_i64` in the source). -/
def minI64 : Int := -(2 ^ 63)

/-- Largest signed 64-bit integer (`max_i64` in the source). -/
def maxI64 : Int := 2 ^ 63 - 1

/-- Per-phase repair state: the `used` set and the two maps being rebuilt. -/
structure RepairState where
  used : List Int
  nci : List (String × Int)
  nic : List (Int × String)
deriving DecidableEq, Repr

/-- First loop of `_repair_chunk_id_mapping`: walk the sorted chunk ids and
keep an existing id exactly when it is present, within int64 range, not a
reserved value, not already used, and the inverse map agrees. -/
def keepPhase (ci : List (String × Int)) (ic : List (Int × String)) :
    List String → RepairState → RepairState
  | [], st => st
  | id :: rest, st =>
    match ci.lookup id with
    | some e =>
      if minI64 ≤ e ∧ e ≤ maxI64 ∧ e ≠ -1 ∧ e ≠ 0 ∧ e ∉ st.used ∧ ic.lookup e = some id then
        keepPhase ci ic rest
          ⟨st.used ++ [e], st.nci ++ [(id, e)], st.nic ++ [(e, id)]⟩
      else keepPhase ci ic rest st
    | none => keepPhase ci ic rest st

/-- The `while next_id in used or next_id in (-1, 0): next_id += 1` loop,
with explicit fuel; the callers always pass enough fuel for the loop to
reach a fresh value. -/
def findFresh (used : List Int) : Nat → Int → Int
  | 0, n => n
  | fuel + 1, n =>
    if n ∈ used ∨ n = -1 ∨ n = 0 then findFresh used fuel (n + 1) else n

/-- Second loop of `_repair_chunk_id_mapping`: assign fresh sequential ids to
the chunks that kept nothing, raising `OverflowError` (`none`) past the int64
maximum. -/
def assignPhase : List String → Int → RepairState → Option RepairState
  | [], _, st => some st
  | id :: rest, next, st =>
    if (st.nci.lookup id).isSome then assignPhase rest next st
    else
      let nid := findFresh st.used (st.used.length + 1) next
      if nid > maxI64 then none
      else assignPhase rest (nid + 1)
        ⟨st.used ++ [nid], st.nci ++ [(id, nid)], st.nic ++ [(nid, id)]⟩

/-- Model of `_repair_chunk_id_mapping`: `chunkIds` stands for
`sorted(self._chunk.keys())`; `none` models the `OverflowError`. -/
def repairChunkIdMapping (chunkIds : List String) (ci : List (String × Int))
    (ic : List (Int × String)) : Option (List (String × Int) × List (Int × String)) :=
  (assignPhase chunkIds 1 (keepPhase ci ic chunkIds ⟨[], [], []⟩)).map
    (fun st => (st.nci, st.nic))

theorem filter_length_mono (l : List Int) (p q : Int → Bool)
    (h : ∀ x, p x = true → q x = true) :
    (l.filter p).length ≤ (l.filter q).length := by
  induction l with
  | nil => exact Nat.le_refl 0
  | cons a rest ih =>
    by_cases hp : p a = true
    · rw [List.filter_cons_of_pos hp, List.filter_cons_of_pos (h a hp)]
      simpa using ih
    · rw [List.filter_cons_of_neg (by simpa using hp)]
      by_cases hq : q a = true
      · rw [List.filter_cons_of_pos hq]
        exact Nat.le_trans ih (by simp)
      · rw [List.filter_cons_of_neg (by simpa using hq)]
        exact ih

theorem filter_ge_succ_length_lt (used : List Int) (n : Int) (h : n ∈ used) :
    (used.filter (fun m => decide (n + 1 ≤ m))).length <
      (used.filter (fun m => decide (n ≤ m))).length := by
  induction used with
  | nil => simp at h
  | cons a rest ih =>
    by_cases ha : a = n
    · subst ha
      rw [List.filter_cons_of_neg (by simp), List.filter_cons_of_pos (by simp)]
      have := filter_length_mono rest (fun m => decide (a + 1 ≤ m))
        (fun m => decide (a ≤ m)) (by intro x hx; simp at hx ⊢; omega)
      simp only [List.length_cons]
      omega
    · have hn : n ∈ rest := by
        rcases List.mem_cons.mp h with h1 | h1
        · exact absurd h1.symm ha
        · exact h1
      by_cases h1 : n + 1 ≤ a
      · rw [List.filter_cons_of_pos (by simpa using h1),
          List.filter_cons_of_pos (by simp; omega)]
        simpa using ih hn
      · by_cases h2 : n ≤ a
        · rw [List.filter_cons_of_neg (by simpa using h1),
            List.filter_cons_of_pos (by simpa using h2)]
          exact Nat.lt_trans (ih hn) (by simp)
        · rw [List.filter_cons_of_neg (by simpa using h1),
            List.filter_cons_of_neg (by simpa using h2)]
          exact ih hn

theorem findFresh_spec (used : List Int) (fuel : Nat) (n : Int) (hn : 1 ≤ n)
    (hfuel : (used.filter (fun m => decide (n ≤ m))).length < fuel) :
    findFresh used fuel n ∉ used ∧ n ≤ findFresh used fuel n := by
  induction fuel generalizing n with
  | zero => omega
  | succ fuel ih =>
    unfold findFresh
    by_cases hc : n ∈ used ∨ n = -1 ∨ n = 0
    · rw [if_pos hc]
      have hmem : n ∈ used := by
        rcases hc with h | h | h
        · exact h
        · omega
        · omega
      have hdec := filter_ge_succ_length_lt used n hmem
      have hres := ih (n + 1) (by omega) (by omega)
      exact ⟨hres.1, by omega⟩
    · rw [if_neg hc]
      push_neg at hc
      exact ⟨hc.1, le_refl n⟩

theorem lookup_mem {α β : Type} [BEq α] [LawfulBEq α]
    {l : List (α × β)} {k : α} {v : β} (h : l.lookup k = some v) : (k, v) ∈ l := by
  induction l with
  | nil => simp [List.lookup] at h
  | cons p rest ih =>
    obtain ⟨a, b⟩ := p
    by_cases hk : k = a
    · subst hk
      simp only [List.lookup, beq_self_eq_true] at h
      cases h
      exact List.mem_cons_self _ _
    · have hbeq : (k == a) = false := by simp [hk]
      simp only [List.lookup, hbeq] at h
      exact List.mem_cons_of_mem _ (ih h)

theorem lookup_eq_none_iff {α β : Type} [BEq α] [LawfulBEq α]
    (l : List (α × β)) (k : α) :
    l.lookup k = none ↔ ∀ p ∈ l, p.1 ≠ k := by
  constructor
  · intro h p hp hpk
    have hs : (l.lookup k).isSome := by
      rw [lookup_isSome_iff]
      exact ⟨p.2, by rw [← hpk]; simpa using hp⟩
    rw [h] at hs
    simp at hs
  · intro h
    cases hl : l.lookup k with
    | none => rfl
    | some v => exact absurd rfl (h (k, v) (lookup_mem hl))

theorem lookup_append_some {α β : Type} [BEq α] [LawfulBEq α]
    {l1 l2 : List (α × β)} {k : α} {v : β} (h : l1.lookup k = some v) :
    (l1 ++ l2).lookup k = some v := by
  induction l1 with
  | nil => simp [List.lookup] at h
  | cons p rest ih =>
    obtain ⟨a, b⟩ := p
    by_cases hk : k = a
    · subst hk
      simp only [List.lookup, beq_self_eq_true] at h ⊢
      exact h
    · have hbeq : (k == a) = false := by simp [hk]
      simp only [List.lookup, hbeq, List.cons_append] at h ⊢
      exact ih h

theorem lookup_append_none {α β : Type} [BEq α] [LawfulBEq α]
    {l1 : List (α × β)} (l2 : List (α × β)) {k : α} (h : l1.lookup k = none) :
    (l1 ++ l2).lookup k = l2.lookup k := by
  induction l1 with
  | nil => rfl
  | cons p rest ih =>
    obtain ⟨a, b⟩ := p
    by_cases hk : k = a
    · subst hk
      simp only [List.lookup, beq_self_eq_true] at h
      exact Option.noConfusion h
    · have hbeq : (k == a) = false := by simp [hk]
      simp only [List.lookup, hbeq, List.cons_append] at h ⊢
      exact ih h

theorem eq_of_mem_nodup_snd {α β : Type} {l : List (α × β)}
    (h : (l.map Prod.snd).Nodup) {k1 k2 : α} {v : β}
    (h1 : (k1, v) ∈ l) (h2 : (k2, v) ∈ l) : k1 = k2 := by
  induction l with
  | nil => simp at h1
  | cons p rest ih =>
    simp only [List.map_cons, List.nodup_cons] at h
    rcases List.mem_cons.mp h1 with e1 | e1 <;> rcases List.mem_cons.mp h2 with e2 | e2
    · rw [← e2] at e1
      exact congrArg Prod.fst e1
    · exfalso
      have hv : v ∈ rest.map Prod.snd := List.mem_map_of_mem Prod.snd e2
      rw [← e1] at h
      exact h.1 hv
    · exfalso
      have hv : v ∈ rest.map Prod.snd := List.mem_map_of_mem Prod.snd e1
      rw [← e2] at h
      exact h.1 hv
    · exact ih h.2 e1 e2

theorem lookup_of_mem_nodup_fst {α β : Type} [BEq α] [LawfulBEq α]
    {l : List (α × β)} (h : (l.map Prod.fst).Nodup) {k : α} {v : β}
    (hm : (k, v) ∈ l) : l.lookup k = some v := by
  induction l with
  | nil => simp at hm
  | cons p rest ih =>
    obtain ⟨a, b⟩ := p
    simp only [List.map_cons, List.nodup_cons] at h
    rcases List.mem_cons.mp hm with e | e
    · cases e
      simp [List.lookup]
    · have hka : k ≠ a := by
        intro hk
        subst hk
        exact h.1 (List.mem_map_of_mem Prod.fst e)
      have hbeq : (k == a) = false := by simp [hka]
      simp only [List.lookup, hbeq]
      exact ih h.2 e

theorem nodup_append_singleton {α : Type} {l : List α} {a : α}
    (h : l.Nodup) (ha : a ∉ l) : (l ++ [a]).Nodup := by
  rw [List.nodup_append]
  refine ⟨h, List.nodup_singleton a, ?_⟩
  intro x hx hxa
  rw [List.mem_singleton] at hxa
  subst hxa
  exact ha hx

theorem keepPhase_cons_none {ci : List (String × Int)} {ic : List (Int × String)}
    {id : String} (rest : List String) (st : RepairState)
    (hci : ci.lookup id = none) :
    keepPhase ci ic (id :: rest) st = keepPhase ci ic rest st := by
  conv_lhs => unfold keepPhase
  rw [hci]

theorem keepPhase_cons_some {ci : List (String × Int)} {ic : List (Int × String)}
    {id : String} {e : Int} (rest : List String) (st : RepairState)
    (hci : ci.lookup id = some e) :
    keepPhase ci ic (id :: rest) st =
      if minI64 ≤ e ∧ e ≤ maxI64 ∧ e ≠ -1 ∧ e ≠ 0 ∧ e ∉ st.used ∧
          ic.lookup e = some id then
        keepPhase ci ic rest
          ⟨st.used ++ [e], st.nci ++ [(id, e)], st.nic ++ [(e, id)]⟩
      else keepPhase ci ic rest st := by
  conv_lhs => unfold keepPhase
  rw [hci]

theorem assignPhase_cons_some {id : String} {v : Int} (rest : List String)
    (next : Int) (st : RepairState) (hci : st.nci.lookup id = some v) :
    assignPhase (id :: rest) next st = assignPhase rest next st := by
  conv_lhs => unfold assignPhase
  rw [hci]
  rfl

theorem assignPhase_cons_none {id : String} (rest : List String)
    (next : Int) (st : RepairState) (hci : st.nci.lookup id = none) :
    assignPhase (id :: rest) next st =
      (if findFresh st.used (st.used.length + 1) next > maxI64 then none
       else assignPhase rest (findFresh st.used (st.used.length + 1) next + 1)
        ⟨st.used ++ [findFresh st.used (st.used.length + 1) next],
         st.nci ++ [(id, findFresh st.used (st.used.length + 1) next)],
         st.nic ++ [(findFresh st.used (st.used.length + 1) next, id)]⟩) := by
  conv_lhs => unfold assignPhase
  rw [hci]
  rfl

/-- Invariant maintained by both repair phases over the rebuilt state. -/
structure RepairInv (keys : List String) (st : RepairState) : Prop where
  fstNodup : (st.nci.map Prod.fst).Nodup
  sndNodup : (st.nci.map Prod.snd).Nodup
  nicFstNodup : (st.nic.map Prod.fst).Nodup
  usedOf : ∀ p ∈ st.nci, p.2 ∈ st.used
  nicUsed : ∀ q ∈ st.nic, q.1 ∈ st.used
  rangeOf : ∀ p ∈ st.nci, p.2 ≠ 0 ∧ p.2 ≠ -1 ∧ minI64 ≤ p.2 ∧ p.2 ≤ maxI64
  keysOf : ∀ p ∈ st.nci, p.1 ∈ keys
  nicFst : ∀ q ∈ st.nic, (q.2, q.1) ∈ st.nci
  nciSnd : ∀ p ∈ st.nci, (p.2, p.1) ∈ st.nic

theorem RepairInv.step {keys : List String} {st : RepairState}
    (inv : RepairInv keys st) {id : String} {e : Int}
    (hidk : id ∈ keys) (hidf : id ∉ st.nci.map Prod.fst) (he : e ∉ st.used)
    (he0 : e ≠ 0) (he1 : e ≠ -1) (helo : minI64 ≤ e) (hehi : e ≤ maxI64) :
    RepairInv keys ⟨st.used ++ [e], st.nci ++ [(id, e)], st.nic ++ [(e, id)]⟩ := by
  have hesnd : e ∉ st.nci.map Prod.snd := by
    intro hmem
    obtain ⟨p, hp, hpe⟩ := List.mem_map.mp hmem
    exact he (hpe ▸ inv.usedOf p hp)
  have henic : e ∉ st.nic.map Prod.fst := by
    intro hmem
    obtain ⟨q, hq, hqe⟩ := List.mem_map.mp hmem
    exact he (hqe ▸ inv.nicUsed q hq)
  refine ⟨?_, ?_, ?_, ?_, ?_, ?_, ?_, ?_, ?_⟩
  · rw [List.map_append]
    exact nodup_append_singleton inv.fstNodup hidf
  · rw [List.map_append]
    exact nodup_append_singleton inv.sndNodup hesnd
  · rw [List.map_append]
    exact nodup_append_singleton inv.nicFstNodup henic
  · intro p hp
    rcases List.mem_append.mp hp with h | h
    · exact List.mem_append.mpr (Or.inl (inv.usedOf p h))
    · simp only [List.mem_singleton] at h
      subst h
      simp
  · intro q hq
    rcases List.mem_append.mp hq with h | h
    · exact List.mem_append.mpr (Or.inl (inv.nicUsed q h))
    · simp only [List.mem_singleton] at h
      subst h
      simp
  · intro p hp
    rcases List.mem_append.mp hp with h | h
    · exact inv.rangeOf p h
    · simp only [List.mem_singleton] at h
      subst h
      exact ⟨he0, he1, helo, hehi⟩
  · intro p hp
    rcases List.mem_append.mp hp with h | h
    · exact inv.keysOf p h
    · simp only [List.mem_singleton] at h
      subst h
      exact hidk
  · intro q hq
    rcases List.mem_append.mp hq with h | h
    · exact List.mem_append.mpr (Or.inl (inv.nicFst q h))
    · simp only [List.mem_singleton] at h
      subst h
      simp
  · intro p hp
    rcases List.mem_append.mp hp with h | h
    · exact List.mem_append.mpr (Or.inl (inv.nciSnd p h))
    · simp only [List.mem_singleton] at h
      subst h
      simp

theorem keepPhase_inv (ci : List (String × Int)) (ic : List (Int × String))
    (keys : List String) :
    ∀ (todo : List String) (st : RepairState), RepairInv keys st →
      (∀ p ∈ st.nci, p.1 ∉ todo) → todo.Nodup → (∀ id ∈ todo, id ∈ keys) →
      RepairInv keys (keepPhase ci ic todo st) := by
  intro todo
  induction todo with
  | nil => intro st inv _ _ _; exact inv
  | cons id rest ih =>
    intro st inv hdisj hnd hsub
    have hndrest : rest.Nodup := (List.nodup_cons.mp hnd).2
    have hidrest : id ∉ rest := (List.nodup_cons.mp hnd).1
    have hsubrest : ∀ i ∈ rest, i ∈ keys := fun i hi => hsub i (List.mem_cons_of_mem _ hi)
    cases hci : ci.lookup id with
    | none =>
      rw [keepPhase_cons_none rest st hci]
      exact ih st inv (fun p hp => fun hr => hdisj p hp (List.mem_cons_of_mem _ hr))
        hndrest hsubrest
    | some e =>
      rw [keepPhase_cons_some rest st hci]
      by_cases hc : minI64 ≤ e ∧ e ≤ maxI64 ∧ e ≠ -1 ∧ e ≠ 0 ∧ e ∉ st.used ∧
          ic.lookup e = some id
      · rw [if_pos hc]
        have hidf : id ∉ st.nci.map Prod.fst := by
          intro hmem
          obtain ⟨p, hp, hpe⟩ := List.mem_map.mp hmem
          exact hdisj p hp (hpe ▸ List.mem_cons_self id rest)
        refine ih _ (inv.step (hsub id (List.mem_cons_self _ _)) hidf hc.2.2.2.2.1
          hc.2.2.2.1 hc.2.2.1 hc.1 hc.2.1) ?_ hndrest hsubrest
        intro p hp
        rcases List.mem_append.mp hp with h | h
        · exact fun hr => hdisj p h (List.mem_cons_of_mem _ hr)
        · simp only [List.mem_singleton] at h
          subst h
          exact hidrest
      · rw [if_neg hc]
        exact ih st inv (fun p hp => fun hr => hdisj p hp (List.mem_cons_of_mem _ hr))
          hndrest hsubrest

theorem minI64_lt_one : minI64 < 1 := by norm_num [minI64]

theorem assignPhase_inv (keys : List String) :
    ∀ (todo : List String) (next : Int) (st st2 : RepairState), 1 ≤ next →
      RepairInv keys st → (∀ id ∈ todo, id ∈ keys) →
      assignPhase todo next st = some st2 → RepairInv keys st2 := by
  intro todo
  induction todo with
  | nil =>
    intro next st st2 _ inv _ h
    cases h
    exact inv
  | cons id rest ih =>
    intro next st st2 hnext inv hsub h
    cases hb : st.nci.lookup id with
    | some v =>
      rw [assignPhase_cons_some rest next st hb] at h
      exact ih next st st2 hnext inv (fun i hi => hsub i (List.mem_cons_of_mem _ hi)) h
    | none =>
      rw [assignPhase_cons_none rest next st hb] at h
      have hfresh := findFresh_spec st.used (st.used.length + 1) next hnext
        (Nat.lt_succ_of_le (List.length_filter_le _ _))
      set nid := findFresh st.used (st.used.length + 1) next with hnid
      by_cases hov : nid > maxI64
      · rw [if_pos hov] at h
        cases h
      · rw [if_neg hov] at h
        have hidf : id ∉ st.nci.map Prod.fst := by
          intro hmem
          obtain ⟨p, hp, hpe⟩ := List.mem_map.mp hmem
          have hcontra : st.nci.lookup id = some p.2 := by
            refine lookup_of_mem_nodup_fst inv.fstNodup ?_
            rw [← hpe]
            simpa using hp
          rw [hb] at hcontra
          cases hcontra
        have h1 : 1 ≤ nid := le_trans hnext hfresh.2
        refine ih (nid + 1) _ st2 (by omega)
          (inv.step (hsub id (List.mem_cons_self _ _)) hidf hfresh.1
            (by omega) (by omega) (by have := minI64_lt_one; omega) (by omega))
          (fun i hi => hsub i (List.mem_cons_of_mem _ hi)) h

theorem assignPhase_mono :
    ∀ (todo : List String) (next : Int) (st st2 : RepairState),
      assignPhase todo next st = some st2 → ∃ suf, st2.nci = st.nci ++ suf := by
  intro todo
  induction todo with
  | nil =>
    intro next st st2 h
    cases h
    exact ⟨[], by simp⟩
  | cons id rest ih =>
    intro next st st2 h
    cases hb : st.nci.lookup id with
    | some v =>
      rw [assignPhase_cons_some rest next st hb] at h
      exact ih _ _ _ h
    | none =>
      rw [assignPhase_cons_none rest next st hb] at h
      by_cases hov : findFresh st.used (st.used.length + 1) next > maxI64
      · rw [if_pos hov] at h
        cases h
      · rw [if_neg hov] at h
        obtain ⟨suf, hsuf⟩ := ih _ _ _ h
        refine ⟨(id, findFresh st.used (st.used.length + 1) next) :: suf, ?_⟩
        rw [hsuf, List.append_assoc]
        rfl

theorem assignPhase_total :
    ∀ (todo : List String) (next : Int) (st st2 : RepairState),
      assignPhase todo next st = some st2 →
      ∀ id ∈ todo, (st2.nci.lookup id).isSome := by
  intro todo
  induction todo with
  | nil =>
    intro next st st2 _ id hid
    simp at hid
  | cons id0 rest ih =>
    intro next st st2 h id hid
    cases hb : st.nci.lookup id0 with
    | some v =>
      rw [assignPhase_cons_some rest next st hb] at h
      rcases List.mem_cons.mp hid with he | he
      · subst he
        obtain ⟨suf, hsuf⟩ := assignPhase_mono rest next st st2 h
        rw [hsuf, lookup_append_some hb]
        rfl
      · exact ih _ _ _ h id he
    | none =>
      rw [assignPhase_cons_none rest next st hb] at h
      by_cases hov : findFresh st.used (st.used.length + 1) next > maxI64
      · rw [if_pos hov] at h
        cases h
      · rw [if_neg hov] at h
        rcases List.mem_cons.mp hid with he | he
        · subst he
          obtain ⟨suf, hsuf⟩ := assignPhase_mono rest _ _ st2 h
          rw [hsuf]
          simp only [List.append_assoc] at hsuf ⊢
          rw [lookup_append_none _ hb]
          have hone : List.lookup id ([(id, findFresh st.used (st.used.length + 1) next)] ++ suf)
              = some (findFresh st.used (st.used.length + 1) next) := by
            refine lookup_append_some ?_
            simp [List.lookup]
          rw [hone]
          rfl
        · exact ih _ _ _ h id he

/-- The `(chunk id, int id)` pairs a second repair run would keep, in key
order (a proof-side description, compared against `keepPhase`). -/
def boundPairs (ci2 : List (String × Int)) (todo : List String) :
    List (String × Int) :=
  todo.filterMap (fun id => (ci2.lookup id).map (fun e => (id, e)))

/-- The inverse pairs of `boundPairs`. -/
def boundInvPairs (ci2 : List (String × Int)) (todo : List String) :
    List (Int × String) :=
  todo.filterMap (fun id => (ci2.lookup id).map (fun e => (e, id)))

/-- The int ids of `boundPairs`. -/
def boundVals (ci2 : List (String × Int)) (todo : List String) : List Int :=
  todo.filterMap (fun id => ci2.lookup id)

theorem keepPhase_all_kept (ci2 : List (String × Int)) (ic2 : List (Int × String))
    (hinj : ∀ id1 id2 e, ci2.lookup id1 = some e → ci2.lookup id2 = some e →
      id1 = id2) :
    ∀ (todo : List String) (st : RepairState), todo.Nodup →
      (∀ id ∈ todo, ∃ e, ci2.lookup id = some e ∧ minI64 ≤ e ∧ e ≤ maxI64 ∧
        e ≠ -1 ∧ e ≠ 0 ∧ ic2.lookup e = some id) →
      (∀ id ∈ todo, ∀ e, ci2.lookup id = some e → e ∉ st.used) →
      keepPhase ci2 ic2 todo st =
        ⟨st.used ++ boundVals ci2 todo, st.nci ++ boundPairs ci2 todo,
         st.nic ++ boundInvPairs ci2 todo⟩ := by
  intro todo
  induction todo with
  | nil =>
    intro st _ _ _
    simp [keepPhase, boundVals, boundPairs, boundInvPairs]
  | cons id rest ih =>
    intro st hnd hbound hfresh
    obtain ⟨e, he, helo, hehi, he1, he0, hic⟩ := hbound id (List.mem_cons_self _ _)
    rw [keepPhase_cons_some rest st he]
    rw [if_pos ⟨helo, hehi, he1, he0, hfresh id (List.mem_cons_self _ _) e he, hic⟩]
    have hfresh2 : ∀ id2 ∈ rest, ∀ e2, ci2.lookup id2 = some e2 →
        e2 ∉ st.used ++ [e] := by
      intro id2 hid2 e2 he2 hmem
      rcases List.mem_append.mp hmem with h | h
      · exact hfresh id2 (List.mem_cons_of_mem _ hid2) e2 he2 h
      · rw [List.mem_singleton] at h
        subst h
        have : id2 = id := hinj id2 id e2 he2 he
        subst this
        exact (List.nodup_cons.mp hnd).1 hid2
    rw [ih _ (List.nodup_cons.mp hnd).2
      (fun i hi => hbound i (List.mem_cons_of_mem _ hi)) hfresh2]
    simp only [boundVals, boundPairs, boundInvPairs, List.filterMap_cons, he,
      Option.map_some']
    simp [List.append_assoc]

theorem assignPhase_skip_all :
    ∀ (todo : List String) (next : Int) (st : RepairState),
      (∀ id ∈ todo, (st.nci.lookup id).isSome) →
      assignPhase todo next st = some st := by
  intro todo
  induction todo with
  | nil => intro next st _; rfl
  | cons id rest ih =>
    intro next st hall
    obtain ⟨v, hv⟩ := Option.isSome_iff_exists.mp (hall id (List.mem_cons_self _ _))
    rw [assignPhase_cons_some rest next st hv]
    exact ih next st (fun i hi => hall i (List.mem_cons_of_mem _ hi))

theorem boundPairs_map_fst (ci2 : List (String × Int)) :
    ∀ todo : List String, (∀ id ∈ todo, (ci2.lookup id).isSome) →
      (boundPairs ci2 todo).map Prod.fst = todo := by
  intro todo
  induction todo with
  | nil => intro _; rfl
  | cons id rest ih =>
    intro hall
    obtain ⟨v, hv⟩ := Option.isSome_iff_exists.mp (hall id (List.mem_cons_self _ _))
    simp only [boundPairs, List.filterMap_cons, hv, Option.map_some', List.map_cons]
    exact congrArg (List.cons id) (ih (fun i hi => hall i (List.mem_cons_of_mem _ hi)))

theorem boundInvPairs_map_fst (ci2 : List (String × Int)) :
    ∀ todo : List String,
      (boundInvPairs ci2 todo).map Prod.fst = boundVals ci2 todo := by
  intro todo
  induction todo with
  | nil => rfl
  | cons id rest ih =>
    cases hv : ci2.lookup id with
    | none => simp only [boundInvPairs, boundVals, List.filterMap_cons, hv,
        Option.map_none']; exact ih
    | some e =>
      simp only [boundInvPairs, boundVals, List.filterMap_cons, hv,
        Option.map_some', List.map_cons]
      exact congrArg (List.cons e) ih

theorem boundVals_nodup (ci2 : List (String × Int))
    (hinj : ∀ id1 id2 e, ci2.lookup id1 = some e → ci2.lookup id2 = some e →
      id1 = id2) :
    ∀ todo : List String, todo.Nodup → (boundVals ci2 todo).Nodup := by
  intro todo
  induction todo with
  | nil => intro _; exact List.nodup_nil
  | cons id rest ih =>
    intro hnd
    cases hv : ci2.lookup id with
    | none =>
      simp only [boundVals, List.filterMap_cons, hv]
      exact ih (List.nodup_cons.mp hnd).2
    | some e =>
      simp only [boundVals, List.filterMap_cons, hv]
      rw [List.nodup_cons]
      constructor
      · intro hmem
        obtain ⟨id2, hid2, he2⟩ := List.mem_filterMap.mp hmem
        have : id = id2 := hinj id id2 e hv he2
        subst this
        exact (List.nodup_cons.mp hnd).1 hid2
      · exact ih (List.nodup_cons.mp hnd).2

/-- C5: after id-map repair every live chunk id resolves to exactly one
integer id, no two chunk ids share an integer, 0 and −1 are never assigned,
every assigned id lies in signed 64-bit range, and running the repair again
on the already-repaired maps succeeds and returns maps that are pointwise
(as Python dict equality) identical. -/
theorem repair_chunk_id_mapping_ok
    (keys : List String) (ci : List (String × Int)) (ic : List (Int × String))
    (ci2 : List (String × Int)) (ic2 : List (Int × String))
    (hkeys : keys.Nodup)
    (hrep : repairChunkIdMapping keys ci ic = some (ci2, ic2)) :
    (∀ id ∈ keys, ∃ e, ci2.lookup id = some e) ∧
    (∀ id e, ci2.lookup id = some e →
      id ∈ keys ∧ e ≠ 0 ∧ e ≠ -1 ∧ minI64 ≤ e ∧ e ≤ maxI64) ∧
    (∀ id1 id2 e, ci2.lookup id1 = some e → ci2.lookup id2 = some e →
      id1 = id2) ∧
    (∃ p, repairChunkIdMapping keys ci2 ic2 = some p ∧
      (∀ s, p.1.lookup s = ci2.lookup s) ∧ (∀ m, p.2.lookup m = ic2.lookup m)) := by
  unfold repairChunkIdMapping at hrep
  obtain ⟨stF, hstF, hfe⟩ := Option.map_eq_some'.mp hrep
  have hcieq : stF.nci = ci2 := congrArg Prod.fst hfe
  have hiceq : stF.nic = ic2 := congrArg Prod.snd hfe
  subst hcieq
  subst hiceq
  have inv0 : RepairInv keys ⟨[], [], []⟩ := by
    refine ⟨?_, ?_, ?_, ?_, ?_, ?_, ?_, ?_, ?_⟩ <;> simp
  have inv1 : RepairInv keys (keepPhase ci ic keys ⟨[], [], []⟩) :=
    keepPhase_inv ci ic keys keys ⟨[], [], []⟩ inv0 (by simp) hkeys (fun id h => h)
  have invF : RepairInv keys stF :=
    assignPhase_inv keys keys 1 _ stF (by norm_num) inv1 (fun id h => h) hstF
  have htotal : ∀ id ∈ keys, (stF.nci.lookup id).isSome :=
    assignPhase_total keys 1 _ stF hstF
  have part1 : ∀ id ∈ keys, ∃ e, stF.nci.lookup id = some e :=
    fun id h => Option.isSome_iff_exists.mp (htotal id h)
  have part3 : ∀ id1 id2 e, stF.nci.lookup id1 = some e →
      stF.nci.lookup id2 = some e → id1 = id2 := by
    intro id1 id2 e h1 h2
    exact eq_of_mem_nodup_snd invF.sndNodup (lookup_mem h1) (lookup_mem h2)
  refine ⟨part1, ?_, part3, ?_⟩
  · intro id e h
    have hm := lookup_mem h
    have hr := invF.rangeOf _ hm
    exact ⟨invF.keysOf _ hm, hr.1, hr.2.1, hr.2.2.1, hr.2.2.2⟩
  · have hbound : ∀ id ∈ keys, ∃ e, stF.nci.lookup id = some e ∧
        minI64 ≤ e ∧ e ≤ maxI64 ∧ e ≠ -1 ∧ e ≠ 0 ∧
        stF.nic.lookup e = some id := by
      intro id hid
      obtain ⟨e, he⟩ := part1 id hid
      have hm := lookup_mem he
      have hr := invF.rangeOf _ hm
      exact ⟨e, he, hr.2.2.1, hr.2.2.2, hr.2.1, hr.1,
        lookup_of_mem_nodup_fst invF.nicFstNodup (invF.nciSnd _ hm)⟩
    have hkeep2 := keepPhase_all_kept stF.nci stF.nic part3 keys ⟨[], [], []⟩
      hkeys hbound (by simp)
    simp only [List.nil_append] at hkeep2
    have hbpf : (boundPairs stF.nci keys).map Prod.fst = keys :=
      boundPairs_map_fst _ keys htotal
    have hbpnodup : ((boundPairs stF.nci keys).map Prod.fst).Nodup := by
      rw [hbpf]; exact hkeys
    have hall2 : ∀ id ∈ keys,
        (((⟨boundVals stF.nci keys, boundPairs stF.nci keys,
           boundInvPairs stF.nci keys⟩ : RepairState)).nci.lookup id).isSome := by
      intro id hid
      obtain ⟨e, he⟩ := part1 id hid
      rw [lookup_isSome_iff]
      exact ⟨e, List.mem_filterMap.mpr ⟨id, hid, by rw [he]; rfl⟩⟩
    have hassign2 := assignPhase_skip_all keys 1
      ⟨boundVals stF.nci keys, boundPairs stF.nci keys,
       boundInvPairs stF.nci keys⟩ hall2
    refine ⟨(boundPairs stF.nci keys, boundInvPairs stF.nci keys), ?_, ?_, ?_⟩
    · unfold repairChunkIdMapping
      rw [hkeep2, hassign2]
      rfl
    · intro s
      by_cases hs : s ∈ keys
      · obtain ⟨e, he⟩ := part1 s hs
        rw [he]
        exact lookup_of_mem_nodup_fst hbpnodup
          (List.mem_filterMap.mpr ⟨s, hs, by rw [he]; rfl⟩)
      · have h1 : (boundPairs stF.nci keys).lookup s = none := by
          rw [lookup_eq_none_iff]
          intro p hp hps
          have hmem : p.1 ∈ keys := by
            rw [← hbpf]
            exact List.mem_map_of_mem Prod.fst hp
          exact hs (hps ▸ hmem)
        have h2 : stF.nci.lookup s = none := by
          rw [lookup_eq_none_iff]
          intro p hp hps
          exact hs (hps ▸ invF.keysOf p hp)
        rw [h1, h2]
    · intro m
      have hbipnodup : ((boundInvPairs stF.nci keys).map Prod.fst).Nodup := by
        rw [boundInvPairs_map_fst]
        exact boundVals_nodup stF.nci part3 keys hkeys
      cases him : stF.nic.lookup m with
      | some id0 =>
        have hm : (m, id0) ∈ stF.nic := lookup_mem him
        have hci0 : (id0, m) ∈ stF.nci := invF.nicFst _ hm
        have hl : stF.nci.lookup id0 = some m :=
          lookup_of_mem_nodup_fst invF.fstNodup hci0
        have hkid : id0 ∈ keys := invF.keysOf _ hci0
        exact lookup_of_mem_nodup_fst hbipnodup
          (List.mem_filterMap.mpr ⟨id0, hkid, by rw [hl]; rfl⟩)
      | none =>
        rw [lookup_eq_none_iff]
        intro q hq hqm
        obtain ⟨id, hid, hfid⟩ := List.mem_filterMap.mp hq
        cases hLid : stF.nci.lookup id with
        | none => rw [hLid] at hfid; cases hfid
        | some e =>
          rw [hLid] at hfid
          simp only [Option.map_some'] at hfid
          injection hfid with hfid2
          subst hfid2
          have hmem : (e, id) ∈ stF.nic := invF.nciSnd _ (lookup_mem hLid)
          have hsome : (stF.nic.lookup e).isSome := by
            rw [lookup_isSome_iff]
            exact ⟨id, hmem⟩
          simp only at hqm
          rw [hqm] at hsome
          rw [him] at hsome
          simp at hsome

/-- Witness for C5 at a concrete input: a two-chunk key list where one chunk
carries a valid persisted id and the other gets a fresh one. -/
theorem repair_chunk_id_mapping_ok_witness :
    (["a", "b"] : List String).Nodup ∧
    (∀ id ∈ (["a", "b"] : List String), ∃ e,
      List.lookup id [("a", (5 : Int)), ("b", 1)] = some e) := by
  constructor
  · decide
  · have hrep : repairChunkIdMapping ["a", "b"] [("a", 5)] [(5, "a")] =
        some ([("a", 5), ("b", 1)], [(5, "a"), (1, "b")]) := by decide
    exact (repair_chunk_id_mapping_ok ["a", "b"] [("a", 5)] [(5, "a")]
      [("a", 5), ("b", 1)] [(5, "a"), (1, "b")] (by decide) hrep).1

/-! ## BM25 lexical index (`ContextIndex.bm25_search`, `_ensure_bm25`)

Floats are rationals; `math.log` is passed in as a function parameter `log`
(an external math routine, like the embedder), applied exactly where the
source applies it. -/

/-- Character class of `_SparseTokenizer`: `[a-z0-9_'-]`. -/
def isTokenChar (c : Char) : Bool :=
  ('a' ≤ c ∧ c ≤ 'z') ∨ ('0' ≤ c ∧ c ≤ '9') ∨ c = '_' ∨ c = Char.ofNat 39 ∨ c = '-'

/-- Maximal runs of token characters in a character list. -/
def tokenRuns : List Char → List Char → List (List Char)
  | [], acc => if acc.isEmpty then [] else [acc.reverse]
  | c :: rest, acc =>
    if isTokenChar c then tokenRuns rest (c :: acc)
    else if acc.isEmpty then tokenRuns rest []
    else acc.reverse :: tokenRuns rest []

/-- Model of `_SparseTokenizer.tokenize`: lowercase the text, then the regex
`[a-z0-9_'-]{2,}` findall, i.e. every maximal token-character run of length
at least 2. -/
def sparseTokenize (text : String) : List String :=
  ((tokenRuns (pyLower text).data []).filter (fun r => 2 ≤ r.length)).map
    (fun r => String.mk r)

/-- The lexical index state built by `_ensure_bm25`: token postings
(chunk id, term frequency), per-chunk token counts, document frequencies and
the average document length. -/
structure Bm25State where
  postings : List (String × List (String × Nat))
  docLen : List (String × Nat)
  df : List (String × Nat)
  avgdl : ℚ
deriving DecidableEq, Repr

/-- Python `scores[cid] = scores.get(cid, 0.0) + v`: dict update keeping the
insertion position of an existing key, appending a fresh key. -/
def dictAddQ : List (String × ℚ) → String → ℚ → List (String × ℚ)
  | [], c, v => [(c, v)]
  | (k, w) :: rest, c, v =>
    if k = c then (k, w + v) :: rest else (k, w) :: dictAddQ rest c v

/-- Python `qtf[t] = qtf.get(t, 0) + 1`. -/
def bumpCount : List (String × Nat) → String → List (String × Nat)
  | [], t => [(t, 1)]
  | (k, n) :: rest, t =>
    if k = t then (k, n + 1) :: rest else (k, n) :: bumpCount rest t

/-- Query term frequencies in first-occurrence order. -/
def countTf (tokens : List String) : List (String × Nat) :=
  tokens.foldl bumpCount []

/-- The `exclude_note_id and meta.get("note_id") == exclude_note_id` test
(an empty exclude string is falsy and never excludes). -/
def excludedNote (excludeNote : Option String) (m : ChunkMeta) : Bool :=
  match excludeNote with
  | some ex => ex ≠ "" ∧ m.note_id = ex
  | none => false

/-- The idf formula `math.log((N - df + 0.5) / (df + 0.5) + 1.0)`. -/
def bm25Idf (log : ℚ → ℚ) (N : Nat) (df : ℚ) : ℚ :=
  log ((((N : ℚ) - df + 1 / 2) / (df + 1 / 2)) + 1)

/-- Body of the `for chunk_id, tf in postings` loop of `bm25_search`. -/
def bm25InnerStep (k1 b idf avgdl : ℚ) (table : ChunkTable)
    (dlMap : List (String × Nat)) (excludeNote : Option String) (qc : Nat)
    (acc2 : List (String × ℚ)) (ctf : String × Nat) : List (String × ℚ) :=
  match table.lookup ctf.1 with
  | none => acc2
  | some meta =>
    if excludedNote excludeNote meta then acc2
    else
      let dl : ℚ := (((dlMap.lookup ctf.1).getD 0 : Nat) : ℚ)
      let denom := (ctf.2 : ℚ) + k1 * (1 - b + b * (dl / avgdl))
      if denom ≤ 0 then acc2
      else dictAddQ acc2 ctf.1 (idf * ((ctf.2 : ℚ) * (k1 + 1) / denom) * (qc : ℚ))

/-- Body of the `for token, q_count in qtf.items()` loop of `bm25_search`. -/
def bm25TokenFold (log : ℚ → ℚ) (k1 b : ℚ) (table : ChunkTable)
    (st : Bm25State) (N : Nat) (avgdl : ℚ) (excludeNote : Option String)
    (acc : List (String × ℚ)) (tq : String × Nat) : List (String × ℚ) :=
  match st.postings.lookup tq.1 with
  | none => acc
  | some ps =>
    if ps = [] then acc
    else
      let df : ℚ := (((st.df.lookup tq.1).getD 0 : Nat) : ℚ)
      let idf := bm25Idf log N df
      ps.foldl (bm25InnerStep k1 b idf avgdl table st.docLen excludeNote tq.2) acc

/-- The `scores` dict computed by `bm25_search` before sorting, including the
early-exit guards (stripped-empty query, empty postings, empty token list). -/
def bm25ScoresFor (log : ℚ → ℚ) (k1 b : ℚ) (table : ChunkTable)
    (st : Bm25State) (query : String) (excludeNote : Option String) :
    List (String × ℚ) :=
  let q := pyStrip query
  if q = "" then []
  else if st.postings = [] then []
  else
    let tokens := sparseTokenize q
    if tokens = [] then []
    else
      let qtf := countTf tokens
      let N := max 1 st.docLen.length
      let avgdl := if 0 < st.avgdl then st.avgdl else 1
      qtf.foldl (bm25TokenFold log k1 b table st N avgdl excludeNote) []

/-- The sort key order of `bm25_search`: descending score, ties by ascending
chunk id (`key=lambda kv: (-kv[1], kv[0])`). -/
def bm25Le (x y : String × ℚ) : Prop :=
  y.2 < x.2 ∨ (x.2 = y.2 ∧ x.1 ≤ y.1)

instance : DecidableRel bm25Le := fun x y => by
  unfold bm25Le
  infer_instance

/-- Model of `ContextIndex.bm25_search`. -/
def bm25Search (log : ℚ → ℚ) (k1 b : ℚ) (table : ChunkTable) (st : Bm25State)
    (query : String) (excludeNote : Option String) (topK : Nat) :
    List (String × ℚ) :=
  (List.insertionSort bm25Le (bm25ScoresFor log k1 b table st query excludeNote)).take topK

/-- The per-chunk BM25 score as `bm25_search` computes it (`scores.get`,
0 when the chunk was never scored). -/
def bm25ScoreOf (log : ℚ → ℚ) (k1 b : ℚ) (table : ChunkTable) (st : Bm25State)
    (query : String) (excludeNote : Option String) (c : String) : ℚ :=
  ((bm25ScoresFor log k1 b table st query excludeNote).lookup c).getD 0

/-- One query term of claim C7's closed-form score:
`idf(t) * tf(t,d) * (k1+1) / (tf(t,d) + k1*(1-b+b*dl/avgdl))`, weighted by
the query-side multiplicity; a chunk absent from a term's postings has
`tf = 0`. -/
def specBm25Term (log : ℚ → ℚ) (k1 b : ℚ) (st : Bm25State) (N : Nat)
    (avgdl : ℚ) (c : String) (tq : String × Nat) : ℚ :=
  bm25Idf log N (((st.df.lookup tq.1).getD 0 : Nat) : ℚ) *
    ((((((st.postings.lookup tq.1).getD []).lookup c).getD 0 : Nat) : ℚ) * (k1 + 1) /
      ((((((st.postings.lookup tq.1).getD []).lookup c).getD 0 : Nat) : ℚ) +
        k1 * (1 - b + b * ((((st.docLen.lookup c).getD 0 : Nat) : ℚ) / avgdl)))) *
    ((tq.2 : Nat) : ℚ)

/-- Claim C7's closed-form score: the sum of `specBm25Term` over the query
terms. -/
def specBm25Score (log : ℚ → ℚ) (k1 b : ℚ) (st : Bm25State) (N : Nat)
    (avgdl : ℚ) (qtf : List (String × Nat)) (c : String) : ℚ :=
  (qtf.map (specBm25Term log k1 b st N avgdl c)).sum

/-- One posting bumped: the tf of chunk `c` under token `t` raised by one
occurrence, everything else identical. -/
def bumpTf (postings : List (String × List (String × Nat))) (t c : String) :
    List (String × List (String × Nat)) :=
  postings.map (fun e =>
    if e.1 = t then
      (e.1, e.2.map (fun q => if q.1 = c then (q.1, q.2 + 1) else q))
    else e)

/-- Score read out of an accumulating score dict. -/
def scoreOfQ (m : List (String × ℚ)) (c : String) : ℚ := (m.lookup c).getD 0

theorem dictAddQ_cons_eq {k c : String} {w v : ℚ} {rest : List (String × ℚ)}
    (h : k = c) : dictAddQ ((k, w) :: rest) c v = (k, w + v) :: rest := by
  conv_lhs => unfold dictAddQ
  rw [if_pos h]

theorem dictAddQ_cons_ne {k c : String} {w v : ℚ} {rest : List (String × ℚ)}
    (h : ¬ k = c) : dictAddQ ((k, w) :: rest) c v = (k, w) :: dictAddQ rest c v := by
  conv_lhs => unfold dictAddQ
  rw [if_neg h]

theorem dictAddQ_lookup_self (m : List (String × ℚ)) (c : String) (v : ℚ) :
    (dictAddQ m c v).lookup c = some ((m.lookup c).getD 0 + v) := by
  induction m with
  | nil =>
    simp only [dictAddQ, List.lookup, beq_self_eq_true, List.lookup_nil,
      Option.getD_none]
    rw [zero_add]
  | cons p rest ih =>
    obtain ⟨k, w⟩ := p
    by_cases hk : k = c
    · subst hk
      rw [dictAddQ_cons_eq rfl]
      simp [List.lookup]
    · have hck : c ≠ k := fun h => hk h.symm
      have hbeq : (c == k) = false := by simp [hck]
      rw [dictAddQ_cons_ne hk]
      simp only [List.lookup, hbeq]
      exact ih

theorem dictAddQ_lookup_other (m : List (String × ℚ)) (c : String) (v : ℚ)
    (c2 : String) (h : c2 ≠ c) : (dictAddQ m c v).lookup c2 = m.lookup c2 := by
  induction m with
  | nil =>
    have hbeq : (c2 == c) = false := by simp [h]
    simp [dictAddQ, List.lookup, hbeq]
  | cons p rest ih =>
    obtain ⟨k, w⟩ := p
    by_cases hk : k = c
    · subst hk
      have hbeq : (c2 == k) = false := by simp [h]
      rw [dictAddQ_cons_eq rfl]
      simp [List.lookup, hbeq]
    · rw [dictAddQ_cons_ne hk]
      by_cases h2 : c2 = k
      · subst h2
        simp [List.lookup]
      · have hbeq : (c2 == k) = false := by simp [h2]
        simp only [List.lookup, hbeq]
        exact ih

theorem scoreOfQ_dictAddQ_self (m : List (String × ℚ)) (c : String) (v : ℚ) :
    scoreOfQ (dictAddQ m c v) c = scoreOfQ m c + v := by
  unfold scoreOfQ
  rw [dictAddQ_lookup_self]
  rfl

theorem scoreOfQ_dictAddQ_other (m : List (String × ℚ)) (c : String) (v : ℚ)
    (c2 : String) (h : c2 ≠ c) :
    scoreOfQ (dictAddQ m c v) c2 = scoreOfQ m c2 := by
  unfold scoreOfQ
  rw [dictAddQ_lookup_other m c v c2 h]

theorem mem_dictAddQ_keys (m : List (String × ℚ)) (c : String) (v : ℚ)
    (k : String) :
    k ∈ (dictAddQ m c v).map Prod.fst ↔ k = c ∨ k ∈ m.map Prod.fst := by
  induction m with
  | nil => simp [dictAddQ]
  | cons p rest ih =>
    obtain ⟨a, w⟩ := p
    by_cases ha : a = c
    · subst ha
      rw [dictAddQ_cons_eq rfl]
      simp only [List.map_cons, List.mem_cons]
      tauto
    · rw [dictAddQ_cons_ne ha]
      simp only [List.map_cons, List.mem_cons, ih]
      tauto

theorem dictAddQ_keys_nodup (m : List (String × ℚ)) (c : String) (v : ℚ)
    (h : (m.map Prod.fst).Nodup) : ((dictAddQ m c v).map Prod.fst).Nodup := by
  induction m with
  | nil => simp [dictAddQ]
  | cons p rest ih =>
    obtain ⟨a, w⟩ := p
    simp only [List.map_cons, List.nodup_cons] at h
    by_cases ha : a = c
    · subst ha
      rw [dictAddQ_cons_eq rfl]
      simp only [List.map_cons, List.nodup_cons]
      exact ⟨h.1, h.2⟩
    · rw [dictAddQ_cons_ne ha]
      simp only [List.map_cons, List.nodup_cons]
      refine ⟨?_, ih h.2⟩
      rw [mem_dictAddQ_keys]
      rintro (hc | hc)
      · exact ha hc
      · exact h.1 hc

/-- The amount a single postings entry adds to its chunk's score. -/
def bm25EntryTerm (k1 b idf avgdl : ℚ) (table : ChunkTable)
    (dlMap : List (String × Nat)) (excludeNote : Option String) (qc : Nat)
    (ctf : String × Nat) : ℚ :=
  match table.lookup ctf.1 with
  | none => 0
  | some meta =>
    if excludedNote excludeNote meta then 0
    else
      let dl : ℚ := (((dlMap.lookup ctf.1).getD 0 : Nat) : ℚ)
      let denom := (ctf.2 : ℚ) + k1 * (1 - b + b * (dl / avgdl))
      if denom ≤ 0 then 0
      else idf * ((ctf.2 : ℚ) * (k1 + 1) / denom) * (qc : ℚ)

theorem innerStep_scoreOfQ (k1 b idf avgdl : ℚ) (table : ChunkTable)
    (dlMap : List (String × Nat)) (excludeNote : Option String) (qc : Nat)
    (acc2 : List (String × ℚ)) (ctf : String × Nat) (c : String) :
    scoreOfQ (bm25InnerStep k1 b idf avgdl table dlMap excludeNote qc acc2 ctf) c =
      scoreOfQ acc2 c +
        (if ctf.1 = c then bm25EntryTerm k1 b idf avgdl table dlMap excludeNote qc ctf
         else 0) := by
  unfold bm25InnerStep bm25EntryTerm
  cases table.lookup ctf.1 with
  | none => simp
  | some meta =>
    by_cases hex : excludedNote excludeNote meta = true
    · simp [hex]
    · simp only [Bool.not_eq_true] at hex
      simp only [hex, Bool.false_eq_true, if_false]
      by_cases hden : (ctf.2 : ℚ) +
          k1 * (1 - b + b * (((((dlMap.lookup ctf.1).getD 0 : Nat) : ℚ)) / avgdl)) ≤ 0
      · simp [hden]
      · simp only [if_neg hden]
        by_cases hc : ctf.1 = c
        · subst hc
          rw [scoreOfQ_dictAddQ_self, if_pos rfl]
        · rw [scoreOfQ_dictAddQ_other _ _ _ _ (fun h => hc h.symm), if_neg hc,
            add_zero]

theorem innerFold_scoreOfQ (k1 b idf avgdl : ℚ) (table : ChunkTable)
    (dlMap : List (String × Nat)) (excludeNote : Option String) (qc : Nat)
    (ps : List (String × Nat)) (c : String) :
    ∀ acc, scoreOfQ (ps.foldl (bm25InnerStep k1 b idf avgdl table dlMap excludeNote qc) acc) c =
      scoreOfQ acc c +
        ((ps.map (fun ctf =>
          if ctf.1 = c then bm25EntryTerm k1 b idf avgdl table dlMap excludeNote qc ctf
          else 0)).sum) := by
  induction ps with
  | nil => intro acc; simp
  | cons ctf rest ih =>
    intro acc
    rw [List.foldl_cons, ih, innerStep_scoreOfQ, List.map_cons, List.sum_cons]
    ring

/-- The amount one query token adds to chunk `c`'s score. -/
def bm25TokenTerm (log : ℚ → ℚ) (k1 b : ℚ) (table : ChunkTable)
    (st : Bm25State) (N : Nat) (avgdl : ℚ) (excludeNote : Option String)
    (c : String) (tq : String × Nat) : ℚ :=
  match st.postings.lookup tq.1 with
  | none => 0
  | some ps =>
    if ps = [] then 0
    else
      ((ps.map (fun ctf =>
        if ctf.1 = c then
          bm25EntryTerm k1 b (bm25Idf log N (((st.df.lookup tq.1).getD 0 : Nat) : ℚ))
            avgdl table st.docLen excludeNote tq.2 ctf
        else 0)).sum)

theorem tokenFold_scoreOfQ (log : ℚ → ℚ) (k1 b : ℚ) (table : ChunkTable)
    (st : Bm25State) (N : Nat) (avgdl : ℚ) (excludeNote : Option String)
    (acc : List (String × ℚ)) (tq : String × Nat) (c : String) :
    scoreOfQ (bm25TokenFold log k1 b table st N avgdl excludeNote acc tq) c =
      scoreOfQ acc c + bm25TokenTerm log k1 b table st N avgdl excludeNote c tq := by
  unfold bm25TokenFold bm25TokenTerm
  cases st.postings.lookup tq.1 with
  | none => simp
  | some ps =>
    by_cases hps : ps = []
    · simp [hps]
    · simp only [if_neg hps]
      rw [innerFold_scoreOfQ]

theorem tokensFold_scoreOfQ (log : ℚ → ℚ) (k1 b : ℚ) (table : ChunkTable)
    (st : Bm25State) (N : Nat) (avgdl : ℚ) (excludeNote : Option String)
    (qtf : List (String × Nat)) (c : String) :
    ∀ acc, scoreOfQ (qtf.foldl (bm25TokenFold log k1 b table st N avgdl excludeNote) acc) c =
      scoreOfQ acc c +
        ((qtf.map (bm25TokenTerm log k1 b table st N avgdl excludeNote c)).sum) := by
  induction qtf with
  | nil => intro acc; simp
  | cons tq rest ih =>
    intro acc
    rw [List.foldl_cons, ih, tokenFold_scoreOfQ, List.map_cons, List.sum_cons]
    ring

theorem bm25ScoreOf_eq_sum (log : ℚ → ℚ) (k1 b : ℚ) (table : ChunkTable)
    (st : Bm25State) (query : String) (excludeNote : Option String) (c : String)
    (hq : ¬ pyStrip query = "") (hp : ¬ st.postings = [])
    (ht : ¬ sparseTokenize (pyStrip query) = []) :
    bm25ScoreOf log k1 b table st query excludeNote c =
      (((countTf (sparseTokenize (pyStrip query))).map
        (bm25TokenTerm log k1 b table st (max 1 st.docLen.length)
          (if 0 < st.avgdl then st.avgdl else 1) excludeNote c)).sum) := by
  show scoreOfQ (bm25ScoresFor log k1 b table st query excludeNote) c = _
  unfold bm25ScoresFor
  simp only [if_neg hq, if_neg hp, if_neg ht]
  rw [tokensFold_scoreOfQ]
  simp [scoreOfQ]

theorem bm25ScoreOf_guard_zero (log : ℚ → ℚ) (k1 b : ℚ) (table : ChunkTable)
    (st : Bm25State) (query : String) (excludeNote : Option String) (c : String)
    (h : pyStrip query = "" ∨ st.postings = [] ∨
      sparseTokenize (pyStrip query) = []) :
    bm25ScoreOf log k1 b table st query excludeNote c = 0 := by
  show scoreOfQ (bm25ScoresFor log k1 b table st query excludeNote) c = 0
  unfold bm25ScoresFor
  by_cases hq : pyStrip query = ""
  · simp [hq, scoreOfQ]
  · by_cases hp : st.postings = []
    · simp [hq, hp, scoreOfQ]
    · have ht : sparseTokenize (pyStrip query) = [] := by tauto
      simp [hq, hp, ht, scoreOfQ]

theorem bm25EntryTerm_nonneg (k1 b idf avgdl : ℚ) (table : ChunkTable)
    (dlMap : List (String × Nat)) (excludeNote : Option String) (qc : Nat)
    (ctf : String × Nat) (hidf : 0 ≤ idf) (hk1 : 0 < k1) :
    0 ≤ bm25EntryTerm k1 b idf avgdl table dlMap excludeNote qc ctf := by
  unfold bm25EntryTerm
  cases table.lookup ctf.1 with
  | none => exact le_refl 0
  | some meta =>
    by_cases hex : excludedNote excludeNote meta = true
    · simp [hex]
    · simp only [Bool.not_eq_true] at hex
      simp only [hex, Bool.false_eq_true, if_false]
      by_cases hden : (ctf.2 : ℚ) +
          k1 * (1 - b + b * ((((dlMap.lookup ctf.1).getD 0 : Nat) : ℚ) / avgdl)) ≤ 0
      · simp [hden]
      · simp only [if_neg hden]
        push_neg at hden
        have htf : (0 : ℚ) ≤ (ctf.2 : ℚ) := Nat.cast_nonneg _
        have hqc : (0 : ℚ) ≤ ((qc : Nat) : ℚ) := Nat.cast_nonneg _
        refine mul_nonneg (mul_nonneg hidf ?_) hqc
        refine div_nonneg (mul_nonneg htf (by linarith)) hden.le

theorem bm25EntryTerm_le_succ (k1 b idf avgdl : ℚ) (table : ChunkTable)
    (dlMap : List (String × Nat)) (excludeNote : Option String) (qc : Nat)
    (c : String) (tf : Nat) (hidf : 0 ≤ idf) (hk1 : 0 < k1)
    (hb0 : 0 ≤ b) (hb1 : b ≤ 1) (havg : 0 < avgdl) :
    bm25EntryTerm k1 b idf avgdl table dlMap excludeNote qc (c, tf) ≤
      bm25EntryTerm k1 b idf avgdl table dlMap excludeNote qc (c, tf + 1) := by
  unfold bm25EntryTerm
  cases table.lookup (c, tf).1 with
  | none => exact le_refl 0
  | some meta =>
    by_cases hex : excludedNote excludeNote meta = true
    · simp [hex]
    · simp only [Bool.not_eq_true] at hex
      simp only [hex, Bool.false_eq_true, if_false]
      set dl : ℚ := (((dlMap.lookup c).getD 0 : Nat) : ℚ) with hdl
      have hdl0 : 0 ≤ dl := Nat.cast_nonneg _
      set K : ℚ := k1 * (1 - b + b * (dl / avgdl)) with hK
      have hK0 : 0 ≤ K := by
        have hdiv : 0 ≤ dl / avgdl := div_nonneg hdl0 havg.le
        have hfac : 0 ≤ 1 - b + b * (dl / avgdl) := by nlinarith
        exact mul_nonneg hk1.le hfac
      have hqc : (0 : ℚ) ≤ ((qc : Nat) : ℚ) := Nat.cast_nonneg _
      by_cases h1 : ((tf : Nat) : ℚ) + K ≤ 0
      · rw [if_pos h1]
        by_cases h2 : (((tf + 1 : Nat) : Nat) : ℚ) + K ≤ 0
        · rw [if_pos h2]
        · rw [if_neg h2]
          push_neg at h2
          have htf1 : (0 : ℚ) ≤ (((tf + 1 : Nat) : Nat) : ℚ) := Nat.cast_nonneg _
          refine mul_nonneg (mul_nonneg hidf ?_) hqc
          exact div_nonneg (mul_nonneg htf1 (by linarith)) h2.le
      · rw [if_neg h1]
        push_neg at h1
        have h2 : ¬ ((((tf + 1 : Nat) : Nat) : ℚ) + K ≤ 0) := by
          push_neg
          push_cast
          linarith
        rw [if_neg h2]
        push_neg at h2
        refine mul_le_mul_of_nonneg_right (mul_le_mul_of_nonneg_left ?_ hidf) hqc
        rw [div_le_div_iff₀ h1 h2]
        push_cast
        nlinarith [hK0, Nat.cast_nonneg (α := ℚ) tf, hk1]

theorem bumpTf_lookup (postings : List (String × List (String × Nat)))
    (t c s : String) :
    (bumpTf postings t c).lookup s = (postings.lookup s).map
      (fun ps => if s = t then ps.map (fun q => if q.1 = c then (q.1, q.2 + 1) else q)
        else ps) := by
  induction postings with
  | nil => rfl
  | cons e rest ih =>
    obtain ⟨tk, ps⟩ := e
    by_cases het : tk = t
    · subst het
      simp only [bumpTf, List.map_cons, if_pos rfl]
      by_cases hs : s = tk
      · subst hs
        simp [List.lookup]
      · have hbeq : (s == tk) = false := by simp [hs]
        simp only [List.lookup, hbeq]
        simpa [bumpTf] using ih
    · simp only [bumpTf, List.map_cons, if_neg het]
      by_cases hs : s = tk
      · subst hs
        have hst : s ≠ t := het
        simp [List.lookup, if_neg hst]
      · have hbeq : (s == tk) = false := by simp [hs]
        simp only [List.lookup, hbeq]
        simpa [bumpTf] using ih

theorem bm25TokenTerm_le_bump (log : ℚ → ℚ) (k1 b : ℚ) (table : ChunkTable)
    (st : Bm25State) (N : Nat) (avgdl : ℚ) (excludeNote : Option String)
    (t c : String) (tq : String × Nat)
    (hk1 : 0 < k1) (hb0 : 0 ≤ b) (hb1 : b ≤ 1) (havg : 0 < avgdl)
    (hlog : 0 ≤ bm25Idf log N (((st.df.lookup t).getD 0 : Nat) : ℚ)) :
    bm25TokenTerm log k1 b table st N avgdl excludeNote c tq ≤
      bm25TokenTerm log k1 b table { st with postings := bumpTf st.postings t c }
        N avgdl excludeNote c tq := by
  unfold bm25TokenTerm
  simp only
  rw [bumpTf_lookup]
  by_cases htq : tq.1 = t
  · simp only [if_pos htq]
    cases hlp : st.postings.lookup tq.1 with
    | none => exact le_refl 0
    | some ps =>
      simp only [Option.map_some']
      by_cases hps : ps = []
      · simp [hps]
      · have hps2 : ¬ ps.map (fun q => if q.1 = c then (q.1, q.2 + 1) else q) = [] := by
          simpa using hps
        rw [if_neg hps, if_neg hps2, List.map_map]
        have hidf : 0 ≤ bm25Idf log N (((st.df.lookup tq.1).getD 0 : Nat) : ℚ) := by
          rw [htq]
          exact hlog
        refine List.sum_le_sum ?_
        intro q hq
        simp only [Function.comp]
        by_cases hqc : q.1 = c
        · rw [if_pos hqc, if_pos hqc]
          simp only [if_pos hqc]
          have hq1 : q = (q.1, q.2) := rfl
          rw [hq1, hqc]
          exact bm25EntryTerm_le_succ k1 b _ avgdl table st.docLen excludeNote
            tq.2 c q.2 hidf hk1 hb0 hb1 havg
        · rw [if_neg hqc]
          simp only [if_neg hqc]
          exact le_refl _
  · simp only [if_neg htq]
    have hmap : (st.postings.lookup tq.1).map (fun ps => ps) = st.postings.lookup tq.1 := by
      cases st.postings.lookup tq.1 <;> rfl
    rw [hmap]

/-- C6: adding one more occurrence of a query term to a candidate chunk, the
chunk's token count, average document length and document frequencies held
fixed (the claim's "length held roughly constant"), never decreases that
chunk's `bm25_search` score.  `k1` is positive, `b` lies in `[0, 1]` (the
defaults are 1.2 and 0.75) and the natural logarithm is nonnegative at the
idf argument, which is at least 1 whenever `df ≤ N`. -/
theorem bm25_score_monotone_add_occurrence
    (log : ℚ → ℚ) (k1 b : ℚ) (table : ChunkTable) (st : Bm25State)
    (query : String) (excludeNote : Option String) (t c : String)
    (hk1 : 0 < k1) (hb0 : 0 ≤ b) (hb1 : b ≤ 1)
    (hlog : 0 ≤ bm25Idf log (max 1 st.docLen.length)
      (((st.df.lookup t).getD 0 : Nat) : ℚ)) :
    bm25ScoreOf log k1 b table st query excludeNote c ≤
      bm25ScoreOf log k1 b table { st with postings := bumpTf st.postings t c }
        query excludeNote c := by
  by_cases hq : pyStrip query = ""
  · rw [bm25ScoreOf_guard_zero _ _ _ _ _ _ _ _ (Or.inl hq),
      bm25ScoreOf_guard_zero _ _ _ _ _ _ _ _ (Or.inl hq)]
  · by_cases hp : st.postings = []
    · have hp2 : bumpTf st.postings t c = [] := by simp [bumpTf, hp]
      rw [bm25ScoreOf_guard_zero _ _ _ _ _ _ _ _ (Or.inr (Or.inl hp)),
        bm25ScoreOf_guard_zero _ _ _ _ _ _ _ _ (Or.inr (Or.inl hp2))]
    · by_cases htok : sparseTokenize (pyStrip query) = []
      · rw [bm25ScoreOf_guard_zero _ _ _ _ _ _ _ _ (Or.inr (Or.inr htok)),
          bm25ScoreOf_guard_zero _ _ _ _ _ _ _ _ (Or.inr (Or.inr htok))]
      · have hp2 : ¬ (bumpTf st.postings t c = []) := by
          simpa [bumpTf] using hp
        rw [bm25ScoreOf_eq_sum _ _ _ _ _ _ _ _ hq hp htok,
          bm25ScoreOf_eq_sum _ _ _ _ _ _ _ _ hq hp2 htok]
        have havg : 0 < (if 0 < st.avgdl then st.avgdl else 1) := by
          by_cases h : 0 < st.avgdl
          · rw [if_pos h]; exact h
          · rw [if_neg h]; norm_num
        refine List.sum_le_sum ?_
        intro tq _
        exact bm25TokenTerm_le_bump log k1 b table st (max 1 st.docLen.length)
          (if 0 < st.avgdl then st.avgdl else 1) excludeNote t c tq
          hk1 hb0 hb1 havg hlog

/-- Witness for C6 at a concrete input: a one-chunk, one-token index with the
constant logarithm, comparing tf = 1 against tf = 2. -/
theorem bm25_score_monotone_add_occurrence_witness :
    bm25ScoreOf (fun _ => 1) 2 1
      [("n1:0:2:0", ⟨"n1", "n1:0:2:0", "ab ab", some 1, [1], []⟩)]
      ⟨[("ab", [("n1:0:2:0", 1)])], [("n1:0:2:0", 2)], [("ab", 1)], 2⟩
      "ab" none "n1:0:2:0" ≤
    bm25ScoreOf (fun _ => 1) 2 1
      [("n1:0:2:0", ⟨"n1", "n1:0:2:0", "ab ab", some 1, [1], []⟩)]
      { (⟨[("ab", [("n1:0:2:0", 1)])], [("n1:0:2:0", 2)], [("ab", 1)], 2⟩ : Bm25State) with
        postings := bumpTf [("ab", [("n1:0:2:0", 1)])] "ab" "n1:0:2:0" }
      "ab" none "n1:0:2:0" :=
  bm25_score_monotone_add_occurrence (fun _ => 1) 2 1
    [("n1:0:2:0", ⟨"n1", "n1:0:2:0", "ab ab", some 1, [1], []⟩)]
    ⟨[("ab", [("n1:0:2:0", 1)])], [("n1:0:2:0", 2)], [("ab", 1)], 2⟩
    "ab" none "ab" "n1:0:2:0" (by decide) (by decide) (by decide) (by decide)

instance : IsTrans (String × ℚ) bm25Le := by
  refine ⟨?_⟩
  intro a b c hab hbc
  rcases hab with h1 | ⟨h1e, h1s⟩ <;> rcases hbc with h2 | ⟨h2e, h2s⟩
  · exact Or.inl (lt_trans h2 h1)
  · exact Or.inl (h2e ▸ h1)
  · exact Or.inl (h1e ▸ h2)
  · exact Or.inr ⟨h1e.trans h2e, le_trans h1s h2s⟩

instance : IsTotal (String × ℚ) bm25Le := by
  refine ⟨?_⟩
  intro a b
  rcases lt_trichotomy a.2 b.2 with h | h | h
  · exact Or.inr (Or.inl h)
  · rcases le_total a.1 b.1 with hs | hs
    · exact Or.inl (Or.inr ⟨h, hs⟩)
    · exact Or.inr (Or.inr ⟨h.symm, hs⟩)
  · exact Or.inl (Or.inl h)

/-- A chunk that survives the per-posting guards: its metadata exists and it
is not excluded. -/
def goodChunk (table : ChunkTable) (excludeNote : Option String) (c : String) :
    Prop :=
  ∃ meta, table.lookup c = some meta ∧ excludedNote excludeNote meta = false

theorem innerStep_keys (k1 b idf avgdl : ℚ) (table : ChunkTable)
    (dlMap : List (String × Nat)) (excludeNote : Option String) (qc : Nat)
    (acc2 : List (String × ℚ)) (ctf : String × Nat) (k : String)
    (h : k ∈ (bm25InnerStep k1 b idf avgdl table dlMap excludeNote qc acc2 ctf).map Prod.fst) :
    k ∈ acc2.map Prod.fst ∨ goodChunk table excludeNote k := by
  unfold bm25InnerStep at h
  cases hm : table.lookup ctf.1 with
  | none => rw [hm] at h; exact Or.inl h
  | some meta =>
    rw [hm] at h
    by_cases hex : excludedNote excludeNote meta = true
    · simp only [hex, if_true] at h
      exact Or.inl h
    · simp only [Bool.not_eq_true] at hex
      simp only [hex, Bool.false_eq_true, if_false] at h
      by_cases hden : (ctf.2 : ℚ) +
          k1 * (1 - b + b * ((((dlMap.lookup ctf.1).getD 0 : Nat) : ℚ) / avgdl)) ≤ 0
      · simp only [if_pos hden] at h
        exact Or.inl h
      · simp only [if_neg hden] at h
        rcases (mem_dictAddQ_keys _ _ _ _).mp h with hk | hk
        · subst hk
          exact Or.inr ⟨meta, hm, hex⟩
        · exact Or.inl hk

theorem innerFold_keys (k1 b idf avgdl : ℚ) (table : ChunkTable)
    (dlMap : List (String × Nat)) (excludeNote : Option String) (qc : Nat)
    (ps : List (String × Nat)) (k : String) :
    ∀ acc2, k ∈ ((ps.foldl (bm25InnerStep k1 b idf avgdl table dlMap excludeNote qc) acc2).map Prod.fst) →
      k ∈ acc2.map Prod.fst ∨ goodChunk table excludeNote k := by
  induction ps with
  | nil => intro acc2 h; exact Or.inl h
  | cons ctf rest ih =>
    intro acc2 h
    rw [List.foldl_cons] at h
    rcases ih _ h with hk | hk
    · exact innerStep_keys k1 b idf avgdl table dlMap excludeNote qc acc2 ctf k hk
    · exact Or.inr hk

theorem tokenFold_keys (log : ℚ → ℚ) (k1 b : ℚ) (table : ChunkTable)
    (st : Bm25State) (N : Nat) (avgdl : ℚ) (excludeNote : Option String)
    (acc : List (String × ℚ)) (tq : String × Nat) (k : String)
    (h : k ∈ (bm25TokenFold log k1 b table st N avgdl excludeNote acc tq).map Prod.fst) :
    k ∈ acc.map Prod.fst ∨ goodChunk table excludeNote k := by
  unfold bm25TokenFold at h
  cases hlp : st.postings.lookup tq.1 with
  | none => rw [hlp] at h; exact Or.inl h
  | some ps =>
    rw [hlp] at h
    by_cases hps : ps = []
    · simp only [if_pos hps] at h
      exact Or.inl h
    · simp only [if_neg hps] at h
      exact innerFold_keys k1 b _ avgdl table st.docLen excludeNote tq.2 ps k acc h

theorem tokensFold_keys (log : ℚ → ℚ) (k1 b : ℚ) (table : ChunkTable)
    (st : Bm25State) (N : Nat) (avgdl : ℚ) (excludeNote : Option String)
    (qtf : List (String × Nat)) (k : String) :
    ∀ acc, k ∈ ((qtf.foldl (bm25TokenFold log k1 b table st N avgdl excludeNote) acc).map Prod.fst) →
      k ∈ acc.map Prod.fst ∨ goodChunk table excludeNote k := by
  induction qtf with
  | nil => intro acc h; exact Or.inl h
  | cons tq rest ih =>
    intro acc h
    rw [List.foldl_cons] at h
    rcases ih _ h with hk | hk
    · exact tokenFold_keys log k1 b table st N avgdl excludeNote acc tq k hk
    · exact Or.inr hk

theorem bm25ScoresFor_keys_good (log : ℚ → ℚ) (k1 b : ℚ) (table : ChunkTable)
    (st : Bm25State) (query : String) (excludeNote : Option String) (k : String)
    (h : k ∈ (bm25ScoresFor log k1 b table st query excludeNote).map Prod.fst) :
    goodChunk table excludeNote k := by
  unfold bm25ScoresFor at h
  by_cases hq : pyStrip query = ""
  · simp [hq] at h
  · rw [if_neg hq] at h
    by_cases hp : st.postings = []
    · simp [hp] at h
    · rw [if_neg hp] at h
      by_cases ht : sparseTokenize (pyStrip query) = []
      · simp [ht] at h
      · rw [if_neg ht] at h
        rcases tokensFold_keys log k1 b table st _ _ excludeNote _ k [] h with hk | hk
        · simp at hk
        · exact hk

theorem innerStep_keys_nodup (k1 b idf avgdl : ℚ) (table : ChunkTable)
    (dlMap : List (String × Nat)) (excludeNote : Option String) (qc : Nat)
    (acc2 : List (String × ℚ)) (ctf : String × Nat)
    (h : (acc2.map Prod.fst).Nodup) :
    ((bm25InnerStep k1 b idf avgdl table dlMap excludeNote qc acc2 ctf).map Prod.fst).Nodup := by
  unfold bm25InnerStep
  cases table.lookup ctf.1 with
  | none => exact h
  | some meta =>
    by_cases hex : excludedNote excludeNote meta = true
    · simp only [hex, if_true]
      exact h
    · simp only [Bool.not_eq_true] at hex
      simp only [hex, Bool.false_eq_true, if_false]
      by_cases hden : (ctf.2 : ℚ) +
          k1 * (1 - b + b * ((((dlMap.lookup ctf.1).getD 0 : Nat) : ℚ) / avgdl)) ≤ 0
      · simp only [if_pos hden]
        exact h
      · simp only [if_neg hden]
        exact dictAddQ_keys_nodup _ _ _ h

theorem innerFold_keys_nodup (k1 b idf avgdl : ℚ) (table : ChunkTable)
    (dlMap : List (String × Nat)) (excludeNote : Option String) (qc : Nat)
    (ps : List (String × Nat)) :
    ∀ acc2, (acc2.map Prod.fst).Nodup →
      (((ps.foldl (bm25InnerStep k1 b idf avgdl table dlMap excludeNote qc) acc2)).map Prod.fst).Nodup := by
  induction ps with
  | nil => intro acc2 h; exact h
  | cons ctf rest ih =>
    intro acc2 h
    rw [List.foldl_cons]
    exact ih _ (innerStep_keys_nodup k1 b idf avgdl table dlMap excludeNote qc acc2 ctf h)

theorem tokenFold_keys_nodup (log : ℚ → ℚ) (k1 b : ℚ) (table : ChunkTable)
    (st : Bm25State) (N : Nat) (avgdl : ℚ) (excludeNote : Option String)
    (acc : List (String × ℚ)) (tq : String × Nat)
    (h : (acc.map Prod.fst).Nodup) :
    ((bm25TokenFold log k1 b table st N avgdl excludeNote acc tq).map Prod.fst).Nodup := by
  unfold bm25TokenFold
  cases st.postings.lookup tq.1 with
  | none => exact h
  | some ps =>
    by_cases hps : ps = []
    · simp only [if_pos hps]
      exact h
    · simp only [if_neg hps]
      exact innerFold_keys_nodup k1 b _ avgdl table st.docLen excludeNote tq.2 ps acc h

theorem tokensFold_keys_nodup (log : ℚ → ℚ) (k1 b : ℚ) (table : ChunkTable)
    (st : Bm25State) (N : Nat) (avgdl : ℚ) (excludeNote : Option String)
    (qtf : List (String × Nat)) :
    ∀ acc, (acc.map Prod.fst).Nodup →
      (((qtf.foldl (bm25TokenFold log k1 b table st N avgdl excludeNote) acc)).map Prod.fst).Nodup := by
  induction qtf with
  | nil => intro acc h; exact h
  | cons tq rest ih =>
    intro acc h
    rw [List.foldl_cons]
    exact ih _ (tokenFold_keys_nodup log k1 b table st N avgdl excludeNote acc tq h)

theorem bm25ScoresFor_keys_nodup (log : ℚ → ℚ) (k1 b : ℚ) (table : ChunkTable)
    (st : Bm25State) (query : String) (excludeNote : Option String) :
    ((bm25ScoresFor log k1 b table st query excludeNote).map Prod.fst).Nodup := by
  unfold bm25ScoresFor
  by_cases hq : pyStrip query = ""
  · simp [hq]
  · rw [if_neg hq]
    by_cases hp : st.postings = []
    · simp [hp]
    · rw [if_neg hp]
      by_cases ht : sparseTokenize (pyStrip query) = []
      · simp [ht]
      · rw [if_neg ht]
        exact tokensFold_keys_nodup log k1 b table st _ _ excludeNote _ [] (by simp)

theorem sum_ite_zero_of_ne (ps : List (String × Nat)) (f : String × Nat → ℚ)
    (c : String) (h : ∀ q ∈ ps, q.1 ≠ c) :
    ((ps.map (fun q => if q.1 = c then f q else 0)).sum) = 0 := by
  induction ps with
  | nil => rfl
  | cons q rest ih =>
    rw [List.map_cons, List.sum_cons, if_neg (h q (List.mem_cons_self _ _)),
      ih (fun p hp => h p (List.mem_cons_of_mem _ hp)), add_zero]

theorem sum_ite_fst (ps : List (String × Nat)) (f : String × Nat → ℚ)
    (c : String) (hnd : (ps.map Prod.fst).Nodup) :
    ((ps.map (fun q => if q.1 = c then f q else 0)).sum) =
      match ps.lookup c with
      | some n => f (c, n)
      | none => 0 := by
  induction ps with
  | nil => rfl
  | cons q rest ih =>
    simp only [List.map_cons, List.nodup_cons] at hnd
    rw [List.map_cons, List.sum_cons]
    by_cases hq : q.1 = c
    · rw [if_pos hq]
      have hrest : ∀ p ∈ rest, p.1 ≠ c := by
        intro p hp hpc
        exact hnd.1 (by rw [hq, ← hpc]; exact List.mem_map_of_mem Prod.fst hp)
      rw [sum_ite_zero_of_ne rest f c hrest, add_zero]
      have hbeq : (c == q.1) = true := by simp [hq]
      show f q = match List.lookup c (q :: rest) with
        | some n => f (c, n)
        | none => 0
      simp only [List.lookup, hbeq]
      rw [← hq]
    · rw [if_neg hq, zero_add, ih hnd.2]
      have hcq : ¬ c = q.1 := fun h => hq h.symm
      have hbeq : (c == q.1) = false := by simp [hcq]
      show _ = match List.lookup c (q :: rest) with
        | some n => f (c, n)
        | none => 0
      simp only [List.lookup, hbeq]

theorem bm25K_nonneg (k1 b dl avgdl : ℚ) (hk1 : 0 < k1) (hb0 : 0 ≤ b)
    (hb1 : b ≤ 1) (havg : 0 < avgdl) (hdl : 0 ≤ dl) :
    0 ≤ k1 * (1 - b + b * (dl / avgdl)) := by
  have hdiv : 0 ≤ dl / avgdl := div_nonneg hdl havg.le
  have hfac : 0 ≤ 1 - b + b * (dl / avgdl) := by nlinarith
  exact mul_nonneg hk1.le hfac

theorem bm25TokenTerm_eq_spec (log : ℚ → ℚ) (k1 b : ℚ) (table : ChunkTable)
    (st : Bm25State) (N : Nat) (avgdl : ℚ) (excludeNote : Option String)
    (c : String) (tq : String × Nat)
    (hps : ∀ e ∈ st.postings, (e.2.map Prod.fst).Nodup)
    (htf1 : ∀ e ∈ st.postings, ∀ q ∈ e.2, 1 ≤ q.2)
    (hgood : goodChunk table excludeNote c)
    (hk1 : 0 < k1) (hb0 : 0 ≤ b) (hb1 : b ≤ 1) (havg : 0 < avgdl) :
    bm25TokenTerm log k1 b table st N avgdl excludeNote c tq =
      specBm25Term log k1 b st N avgdl c tq := by
  unfold bm25TokenTerm specBm25Term
  cases hlp : st.postings.lookup tq.1 with
  | none =>
    simp
  | some ps =>
    simp only [Option.getD_some]
    by_cases hpse : ps = []
    · subst hpse
      simp
    · rw [if_neg hpse]
      have hmem : (tq.1, ps) ∈ st.postings := lookup_mem hlp
      rw [sum_ite_fst ps _ c (hps _ hmem)]
      cases hpc : ps.lookup c with
      | none =>
        simp
      | some n =>
        simp only [Option.getD_some]
        obtain ⟨meta, hmeta, hexf⟩ := hgood
        have hn1 : 1 ≤ n := htf1 _ hmem (c, n) (lookup_mem hpc)
        unfold bm25EntryTerm
        simp only [hmeta, hexf, Bool.false_eq_true, if_false]
        have hK := bm25K_nonneg k1 b (((st.docLen.lookup c).getD 0 : Nat) : ℚ)
          avgdl hk1 hb0 hb1 havg (Nat.cast_nonneg _)
        have hden : ¬ ((n : ℚ) +
            k1 * (1 - b + b * ((((st.docLen.lookup c).getD 0 : Nat) : ℚ) / avgdl)) ≤ 0) := by
          push_neg
          have : (1 : ℚ) ≤ (n : ℚ) := by exact_mod_cast hn1
          linarith
        rw [if_neg hden]

/-- C7: with the default parameters `k1 = 1.2` and `b = 0.75`, `bm25_search`
scores each returned chunk by the claim's closed formula (sum over query
terms of `idf(t)*tf*(k1+1)/(tf+k1*(1-b+b*dl/avgdl))` with
`idf(t)=ln((N-df+0.5)/(df+0.5)+1)`, the logarithm being the external `math.log`
parameter), and returns the `top_k` of the scored chunks sorted by descending
score with ties broken by ascending chunk id: the result list is sorted for
that key, has length `min top_k (number of scored chunks)`, and every scored
chunk left out ranks no better than every returned one.  The hypotheses state
that the index was built by `_ensure_bm25`: one posting per chunk per token,
and positive stored term frequencies. -/
theorem bm25_search_top_k (log : ℚ → ℚ) (table : ChunkTable) (st : Bm25State)
    (query : String) (excludeNote : Option String) (topK : Nat)
    (hps : ∀ e ∈ st.postings, (e.2.map Prod.fst).Nodup)
    (htf1 : ∀ e ∈ st.postings, ∀ q ∈ e.2, 1 ≤ q.2) :
    (∀ p ∈ bm25Search log (6/5) (3/4) table st query excludeNote topK,
      p.2 = specBm25Score log (6/5) (3/4) st (max 1 st.docLen.length)
        (if 0 < st.avgdl then st.avgdl else 1)
        (countTf (sparseTokenize (pyStrip query))) p.1) ∧
    List.Sorted bm25Le (bm25Search log (6/5) (3/4) table st query excludeNote topK) ∧
    (bm25Search log (6/5) (3/4) table st query excludeNote topK).length =
      min topK (bm25ScoresFor log (6/5) (3/4) table st query excludeNote).length ∧
    (∀ p ∈ bm25ScoresFor log (6/5) (3/4) table st query excludeNote,
      p ∉ bm25Search log (6/5) (3/4) table st query excludeNote topK →
      ∀ r ∈ bm25Search log (6/5) (3/4) table st query excludeNote topK, bm25Le r p) := by
  set scores := bm25ScoresFor log (6/5) (3/4) table st query excludeNote with hscores
  set sorted := List.insertionSort bm25Le scores with hsorted
  have hperm : sorted.Perm scores := List.perm_insertionSort bm25Le scores
  have hsort : List.Sorted bm25Le sorted := List.sorted_insertionSort bm25Le scores
  have hres : bm25Search log (6/5) (3/4) table st query excludeNote topK =
      sorted.take topK := rfl
  refine ⟨?_, ?_, ?_, ?_⟩
  · intro p hp
    rw [hres] at hp
    have hpsorted : p ∈ sorted := List.take_subset _ _ hp
    have hpscores : p ∈ scores := hperm.mem_iff.mp hpsorted
    have hkey : p.1 ∈ scores.map Prod.fst := List.mem_map_of_mem Prod.fst hpscores
    have hgood : goodChunk table excludeNote p.1 :=
      bm25ScoresFor_keys_good log (6/5) (3/4) table st query excludeNote p.1 hkey
    have hnodup := bm25ScoresFor_keys_nodup log (6/5) (3/4) table st query excludeNote
    have hlook : scores.lookup p.1 = some p.2 := by
      refine lookup_of_mem_nodup_fst hnodup ?_
      rw [← hscores]
      simpa using hpscores
    have hsc : bm25ScoreOf log (6/5) (3/4) table st query excludeNote p.1 = p.2 := by
      show (scores.lookup p.1).getD 0 = p.2
      rw [hlook]
      rfl
    have hq : ¬ pyStrip query = "" := by
      intro hq
      rw [hscores] at hpscores
      unfold bm25ScoresFor at hpscores
      simp [hq] at hpscores
    have hpost : ¬ st.postings = [] := by
      intro hcontra
      rw [hscores] at hpscores
      unfold bm25ScoresFor at hpscores
      simp [hcontra] at hpscores
    have htok : ¬ sparseTokenize (pyStrip query) = [] := by
      intro hcontra
      rw [hscores] at hpscores
      unfold bm25ScoresFor at hpscores
      simp [hq, hcontra] at hpscores
    rw [← hsc, bm25ScoreOf_eq_sum _ _ _ _ _ _ _ _ hq hpost htok]
    unfold specBm25Score
    have havg : 0 < (if 0 < st.avgdl then st.avgdl else 1) := by
      by_cases h : 0 < st.avgdl
      · rw [if_pos h]; exact h
      · rw [if_neg h]; norm_num
    refine congrArg List.sum (List.map_congr_left ?_)
    intro tq _
    exact bm25TokenTerm_eq_spec log (6/5) (3/4) table st _ _ excludeNote p.1 tq
      hps htf1 hgood (by norm_num) (by norm_num) (by norm_num) havg
  · rw [hres]
    exact hsort.sublist (List.take_sublist _ _)
  · rw [hres, List.length_take, hperm.length_eq]
  · intro p hp hnp r hr
    rw [hres] at hnp hr
    have hpsorted : p ∈ sorted := hperm.mem_iff.mpr hp
    have hsplit : sorted = sorted.take topK ++ sorted.drop topK :=
      (List.take_append_drop topK sorted).symm
    have hpdrop : p ∈ sorted.drop topK := by
      rcases List.mem_append.mp (by rw [← hsplit]; exact hpsorted) with h | h
      · exact absurd h hnp
      · exact h
    have hpw : List.Pairwise bm25Le (sorted.take topK ++ sorted.drop topK) := by
      rw [← hsplit]
      exact hsort
    exact (List.pairwise_append.mp hpw).2.2 r hr p hpdrop

/-- Witness for C7 at a concrete one-chunk index. -/
theorem bm25_search_top_k_witness :
    (∀ p ∈ bm25Search (fun _ => 1) (6/5) (3/4)
        [("n1:0:5:0", ⟨"n1", "n1:0:5:0", "ab cd", some 1, [1], []⟩)]
        ⟨[("ab", [("n1:0:5:0", 1)])], [("n1:0:5:0", 2)], [("ab", 1)], 2⟩
        "ab" none 5,
      p.2 = specBm25Score (fun _ => 1) (6/5) (3/4)
        ⟨[("ab", [("n1:0:5:0", 1)])], [("n1:0:5:0", 2)], [("ab", 1)], 2⟩
        (max 1 ([("n1:0:5:0", 2)] : List (String × Nat)).length)
        (if 0 < (2 : ℚ) then (2 : ℚ) else 1)
        (countTf (sparseTokenize (pyStrip "ab"))) p.1) ∧
    List.Sorted bm25Le (bm25Search (fun _ => 1) (6/5) (3/4)
        [("n1:0:5:0", ⟨"n1", "n1:0:5:0", "ab cd", some 1, [1], []⟩)]
        ⟨[("ab", [("n1:0:5:0", 1)])], [("n1:0:5:0", 2)], [("ab", 1)], 2⟩
        "ab" none 5) := by
  have h := bm25_search_top_k (fun _ => 1)
    [("n1:0:5:0", ⟨"n1", "n1:0:5:0", "ab cd", some 1, [1], []⟩)]
    ⟨[("ab", [("n1:0:5:0", 1)])], [("n1:0:5:0", 2)], [("ab", 1)], 2⟩
    "ab" none 5 (by decide) (by decide)
  exact ⟨h.1, h.2.1⟩

/-! ## C2: `dense_search` and the FAISS requirement -/

/-- An abstract FAISS index: its size and its external ANN search routine,
returning `(score, int_id)` pairs. -/
structure FaissIndex where
  ntotal : Nat
  search : Vec → Nat → List (ℚ × Int)

/-- The dense-retrieval slice of the `ContextIndex` state. -/
structure DenseState where
  chunk : ChunkTable
  chunkInt : List (String × Int)
  intChunk : List (Int × String)
  denseMatrix : Option (List Vec)
  denseChunkIds : List String
  denseNoteIds : List String
  denseDim : Option Nat
  denseDirty : Bool
  faissIndex : Option FaissIndex
  faissDirty : Bool

/-- Python dict assignment `d[k] = v`: replace in place or append. -/
def dictSet {α β : Type} [DecidableEq α] : List (α × β) → α → β → List (α × β)
  | [], k, v => [(k, v)]
  | (a, b) :: rest, k, v =>
    if a = k then (k, v) :: rest else (a, b) :: dictSet rest k v

/-- The `while next_id in used or next_id in (-1, 0)` loop of
`_ensure_chunk_int`: the smallest free positive id, found by pigeonhole among
the first `used.length + 2` candidates. -/
def nextFresh (used : List Int) : Int :=
  (((List.range (used.length + 2)).map (fun n => Int.ofNat n + 1)).find?
    (fun i => ! used.contains i)).getD 1

/-- `_ensure_chunk_int`: return the existing int id for a chunk or mint the
smallest fresh positive id, updating both direction maps. -/
def ensureChunkInt (cn : List (String × Int)) (nic : List (Int × String))
    (cid : String) : Int × List (String × Int) × List (Int × String) :=
  match cn.lookup cid with
  | some v => (v, cn, nic)
  | none =>
    let nid := nextFresh (cn.map Prod.snd)
    (nid, dictSet cn cid nid, dictSet nic nid cid)

/-- The `ids = [self._ensure_chunk_int(cid) for cid in self._dense_chunk_ids]`
comprehension of `_rebuild_faiss`, threading the map updates. -/
def ensureIds : List String → List (String × Int) → List (Int × String) →
    List Int × List (String × Int) × List (Int × String)
  | [], cn, nic => ([], cn, nic)
  | cid :: rest, cn, nic =>
    match ensureChunkInt cn nic cid with
    | (v, cn1, nic1) =>
      match ensureIds rest cn1 nic1 with
      | (ids, cn2, nic2) => (v :: ids, cn2, nic2)

/-- Loop body of `_rebuild_dense_cache`: keep chunks whose stored dense vector
is nonempty, normalises to a nonempty vector, and matches the first dimension
seen; accumulate `(chunk_id, note_id, vector)` rows. -/
def denseCacheFold (nd : List ℚ → Vec)
    (acc : Option Nat × List (String × String × Vec)) (e : String × ChunkMeta) :
    Option Nat × List (String × String × Vec) :=
  if e.2.dense = [] then acc
  else
    let v := nd e.2.dense
    if v = [] then acc
    else
      match acc.1 with
      | none => (some v.length, acc.2 ++ [(e.1, e.2.note_id, v)])
      | some d =>
        if v.length = d then (acc.1, acc.2 ++ [(e.1, e.2.note_id, v)]) else acc

/-- `_rebuild_dense_cache`: iterate chunks in sorted key order, filter and
normalise, and store the id list, note list and matrix (`None` when empty). -/
def rebuildDenseCache (nd : List ℚ → Vec) (st : DenseState) : DenseState :=
  let sorted := List.insertionSort
    (fun a b : String × ChunkMeta => a.1 ≤ b.1) st.chunk
  let fr := sorted.foldl (denseCacheFold nd) (none, [])
  { st with
    denseDim := fr.1
    denseChunkIds := fr.2.map (fun r => r.1)
    denseNoteIds := fr.2.map (fun r => r.2.1)
    denseMatrix := if fr.2 = [] then none else some (fr.2.map (fun r => r.2.2))
    denseDirty := false }

/-- `_rebuild_faiss`: raises when the FAISS library is unavailable, rebuilds
the dense cache if dirty, clears the index when the matrix is empty, and
otherwise builds the external index over the matrix and minted int ids. -/
def rebuildFaiss (nd : List ℚ → Vec)
    (buildIndex : List Vec → List Int → FaissIndex)
    (faissAvailable : Bool) (st : DenseState) : Except String DenseState :=
  if faissAvailable = false then
    Except.error "FAISS is required for semantic context"
  else
    let st1 :=
      if st.denseDirty || st.denseMatrix.isNone then rebuildDenseCache nd st
      else st
    match st1.denseMatrix with
    | none => Except.ok { st1 with faissIndex := none, faissDirty := false }
    | some rows =>
      if rows = [] then Except.ok { st1 with faissIndex := none, faissDirty := false }
      else
        match ensureIds st1.denseChunkIds st1.chunkInt st1.intChunk with
        | (ids, cn2, nic2) =>
          Except.ok { st1 with
            chunkInt := cn2
            intChunk := nic2
            faissIndex := some (buildIndex rows ids)
            faissDirty := false }

/-- The result loop of `dense_search`: drop `-1` ids, map int ids back to
chunk ids, skip missing/deleted/excluded chunks, stop at `top_k` results. -/
def densePostLoop (table : ChunkTable) (nic : List (Int × String))
    (excludeNote : Option String) (topK : Nat) :
    List (ℚ × Int) → List (String × ℚ) → List (String × ℚ)
  | [], acc => acc.reverse
  | (score, intId) :: rest, acc =>
    if intId = -1 then densePostLoop table nic excludeNote topK rest acc
    else
      match nic.lookup intId with
      | none => densePostLoop table nic excludeNote topK rest acc
      | some cid =>
        if cid = "" then densePostLoop table nic excludeNote topK rest acc
        else
          match table.lookup cid with
          | none => densePostLoop table nic excludeNote topK rest acc
          | some meta =>
            if excludedNote excludeNote meta then
              densePostLoop table nic excludeNote topK rest acc
            else
              let acc1 := (cid, score) :: acc
              if topK ≤ acc1.length then acc1.reverse
              else densePostLoop table nic excludeNote topK rest acc1

/-- `ContextIndex.dense_search` (the `float32` cast is the identity in the
rational model; the external search call itself is the index's oracle and its
exception wrapper is not modelled). -/
def denseSearch (nd : List ℚ → Vec)
    (buildIndex : List Vec → List Int → FaissIndex)
    (faissAvailable : Bool) (st : DenseState) (queryVec : Vec)
    (excludeNote : Option String) (topK : Nat) :
    Except String (List (String × ℚ) × DenseState) :=
  match (if st.faissDirty then rebuildFaiss nd buildIndex faissAvailable st
         else Except.ok st) with
  | Except.error e => Except.error e
  | Except.ok st1 =>
    match st1.faissIndex with
    | none =>
      match st1.denseMatrix with
      | none => Except.ok ([], st1)
      | some rows =>
        if rows = [] then Except.ok ([], st1)
        else Except.error
          "FAISS context index is unavailable. Rebuild the semantic context index."
    | some idx =>
      let k := min (topK * 3) idx.ntotal
      if k = 0 then Except.ok ([], st1)
      else Except.ok
        (densePostLoop st1.chunk st1.intChunk excludeNote topK
          (idx.search queryVec k) [], st1)

/-- C2 (amended): contrary to the spec's brute-force-fallback sentence,
`dense_search` never answers from the flat dense cache when the ANN index is
unavailable.  If the index is marked dirty and the FAISS library is missing,
the call raises "FAISS is required for semantic context"; if the index is
absent with nothing to rebuild, the call returns `[]` when the flat dense
matrix is empty and raises "FAISS context index is unavailable. Rebuild the
semantic context index." when the matrix is nonempty — exactly the case in
which a brute-force fallback would have produced results. -/
theorem dense_search_requires_faiss (nd : List ℚ → Vec)
    (buildIndex : List Vec → List Int → FaissIndex) (st : DenseState)
    (queryVec : Vec) (excludeNote : Option String) (topK : Nat) :
    (st.faissDirty = true →
      denseSearch nd buildIndex false st queryVec excludeNote topK =
        Except.error "FAISS is required for semantic context") ∧
    (∀ faissAvailable, st.faissDirty = false → st.faissIndex = none →
      denseSearch nd buildIndex faissAvailable st queryVec excludeNote topK =
        match st.denseMatrix with
        | none => Except.ok ([], st)
        | some rows =>
          if rows = [] then Except.ok ([], st)
          else Except.error
            "FAISS context index is unavailable. Rebuild the semantic context index.") := by
  constructor
  · intro hd
    unfold denseSearch
    rw [hd]
    simp only [if_true]
    rfl
  · intro fa hd hidx
    unfold denseSearch
    rw [hd]
    simp only [Bool.false_eq_true, if_false]
    rw [hidx]

/-- Witness for C2: a dirty state without FAISS raises the requirement error,
and a clean state with a nonempty matrix but no index raises the
unavailability error — in both cases the chunk table has a densely embedded
chunk a brute-force fallback could have returned. -/
theorem dense_search_requires_faiss_witness :
    (denseSearch (fun v => v) (fun _ _ => ⟨0, fun _ _ => []⟩) false
      { chunk := [("n1:0:2:0", ⟨"n1", "n1:0:2:0", "ab", some 1, [1], []⟩)],
        chunkInt := [], intChunk := [], denseMatrix := none,
        denseChunkIds := [], denseNoteIds := [], denseDim := none,
        denseDirty := true, faissIndex := none, faissDirty := true }
      [1] none 5 =
      Except.error "FAISS is required for semantic context") ∧
    (denseSearch (fun v => v) (fun _ _ => ⟨0, fun _ _ => []⟩) true
      { chunk := [("n1:0:2:0", ⟨"n1", "n1:0:2:0", "ab", some 1, [1], []⟩)],
        chunkInt := [("n1:0:2:0", 1)], intChunk := [(1, "n1:0:2:0")],
        denseMatrix := some [[1]], denseChunkIds := ["n1:0:2:0"],
        denseNoteIds := ["n1"], denseDim := some 1,
        denseDirty := false, faissIndex := none, faissDirty := false }
      [1] none 5 =
      Except.error
        "FAISS context index is unavailable. Rebuild the semantic context index.") := by
  constructor
  · exact (dense_search_requires_faiss (fun v => v)
      (fun _ _ => ⟨0, fun _ _ => []⟩)
      { chunk := [("n1:0:2:0", ⟨"n1", "n1:0:2:0", "ab", some 1, [1], []⟩)],
        chunkInt := [], intChunk := [], denseMatrix := none,
        denseChunkIds := [], denseNoteIds := [], denseDim := none,
        denseDirty := true, faissIndex := none, faissDirty := true }
      [1] none 5).1 rfl
  · have h := (dense_search_requires_faiss (fun v => v)
      (fun _ _ => ⟨0, fun _ _ => []⟩)
      { chunk := [("n1:0:2:0", ⟨"n1", "n1:0:2:0", "ab", some 1, [1], []⟩)],
        chunkInt := [("n1:0:2:0", 1)], intChunk := [(1, "n1:0:2:0")],
        denseMatrix := some [[1]], denseChunkIds := ["n1:0:2:0"],
        denseNoteIds := ["n1"], denseDim := some 1,
        denseDirty := false, faissIndex := none, faissDirty := false }
      [1] none 5).2 true rfl rfl
    exact h.trans rfl

/-- C2 counterexample to the claim as stated: with the FAISS library
unavailable and a chunk carrying a dense embedding in the table, the dirty
`dense_search` raises instead of answering by brute force over the flat
cache. -/
theorem dense_search_fallback_counterexample :
    denseSearch (fun v => v) (fun _ _ => ⟨0, fun _ _ => []⟩) false
      { chunk := [("m7:0:4:0", ⟨"m7", "m7:0:4:0", "cd", some 1, [1, 0], []⟩)],
        chunkInt := [], intChunk := [], denseMatrix := none,
        denseChunkIds := [], denseNoteIds := [], denseDim := none,
        denseDirty := true, faissIndex := none, faissDirty := true }
      [1, 0] none 3 =
      Except.error "FAISS is required for semantic context" := rfl

/-! ## The `ContextService.context` pipeline

External and heuristic components (embedder, chunker, normaliser, concept
extraction, retrieval indexes, excerpt heuristics, reranker model, sha1) are
oracle parameters; the pipeline control flow — limit clamp, cache, early
returns, candidate filtering, the raises, reranker plumbing, MMR selection
and cache store — is translated from the source. -/

/-- A markdown block from `chunk_blocks` (`end` is a Lean keyword, so the
`end` attribute is `endPos`). -/
structure Block where
  start : Nat
  endPos : Nat
  text : String
deriving DecidableEq, Repr

/-- `ContextRequest` (pydantic guarantees `1 ≤ limit ≤ 20`; `limit` is kept a
`Nat` and the lower bound becomes a hypothesis where needed). -/
structure ContextRequest where
  note_id : String
  text : String
  cursor_offset : Int
  limit : Nat
deriving DecidableEq, Repr

/-- A returned `ContextSnippetPayload` (the `debug` dict is dropped: it is
`None` unless `include_debug` and carries no claim-relevant data). -/
structure Snippet where
  note_id : String
  chunk_id : String
  text : String
  score : ℚ
  concept : Option String
deriving DecidableEq, Repr

/-- A `scored` tuple `(cid, base, debug)`: only the claim-relevant debug
fields survive — `gap_concept_id` and the `combined` score installed by the
reranker (`debug.get("combined", base)` is `combined.getD base`). -/
structure Scored where
  cid : String
  base : ℚ
  gapBest : Option String
  combined : Option ℚ
deriving DecidableEq, Repr

/-- The environment-variable tunables read by `context()`, `_apply_reranker`
and their helpers, at their parsed values. -/
structure Config where
  maxResults : Int
  groundedTau : ℚ
  shortWindowTokens : Nat
  mixWeight : ℚ
  minLexTokens : Nat
  denseTopN : Int
  bm25TopN : Int
  minQuality : ℚ
  maxCandidates : Nat
  rerankTopK : Nat
  rerankWeight : ℚ
  mmrMu : ℚ
  coverageWeight : ℚ
  noteRepeatPenalty : ℚ
  crossNotePenalty : ℚ
  scoreTemp : ℚ
  scoreBias : ℚ
  minExcerptQuality : ℚ

/-- The external/heuristic components of the pipeline.  `gateAndScore`
bundles the pure relevance arithmetic and cross-note gating of the scoring
loop (source lines 2159–2241): it sees the window, candidate id, metadata and
quality, and yields `none` when one of the gating `continue`s fires,
otherwise the `base` score and the `gap_concept_id` debug value. -/
structure Oracles where
  normTextFn : String → String
  normCursorFn : String → Int → Nat
  chunkBlocksFn : String → List Block
  sha1_12 : String → String
  clipTokens : String → Nat → String
  lexTokens : String → List String
  embedWindow : String → String → Vec
  computePrefixVec : String → Nat → String → Option Vec
  nd : List ℚ → Vec
  extractConcepts : String → List String
  normLabel : String → String
  countOccur : String → String → Nat
  conceptCentroid : String → Option Vec
  conceptChunks : List String → List String
  conceptLabel : String → Option String
  denseHits : Vec → Int → List (String × ℚ)
  bm25Hits : String → Int → List (String × ℚ)
  lowInfo : String → Bool
  gateAndScore : String → String → ChunkMeta → ℚ → Option (ℚ × Option String)
  rerankEnabled : Bool
  rerank : String → List String → Option (List ℚ)
  excerptNear : String → List String → Nat → String
  excerptPlain : String → List String → String
  stripHeading : String → String
  chunkQuality : String → ℚ
  exKey : String → String
  sigmoid : ℚ → ℚ

/-- The slice of `ContextService`/`ContextIndex` state that `context()` reads
and writes (the window-embedding cache is behind the `embedWindow` oracle). -/
structure ServiceState where
  table : ChunkTable
  denseDim : Option Nat
  cacheKey : Option (String × Nat × String)
  cacheValue : List Snippet

/-- `":".join`-style separator join. -/
def joinSep (sep : String) : List String → String
  | [] => ""
  | [x] => x
  | x :: xs => x ++ sep ++ joinSep sep xs

/-- Python `set.add`: sets are nodup lists in insertion order. -/
def setAdd (s : List String) (x : String) : List String :=
  if x ∈ s then s else s ++ [x]

/-- Python `set |= iterable`. -/
def setAddAll (s : List String) (xs : List String) : List String :=
  xs.foldl setAdd s

/-- The retrieval union loops: `candidate_ids.add(cid)` then break once the
set reaches 800 members. -/
def capAdd : List String → List String → List String
  | s, [] => s
  | s, x :: xs =>
    let s1 := setAdd s x
    if 800 ≤ s1.length then s1 else capAdd s1 xs

/-- `min(values)` with Python's `if values else 0.0` default. -/
def listMinQ : List ℚ → ℚ
  | [] => 0
  | x :: xs => xs.foldl min x

/-- `max(values)` with the same default. -/
def listMaxQ : List ℚ → ℚ
  | [] => 0
  | x :: xs => xs.foldl max x

/-- The cursor-to-block loop of `context()`: last block whose `end` the
cursor passed, or the first block containing the cursor. -/
def locateBlock (cursor : Nat) : List Block → Nat → Nat → Nat
  | [], _, best => best
  | b :: rest, i, best =>
    if b.start ≤ cursor ∧ cursor ≤ b.endPos then i
    else locateBlock cursor rest (i + 1) (if b.endPos < cursor then i else best)

/-- `ContextIndex.embedding_dim_guess`: the cached dense dimension, else the
dense length of the first chunk that has one. -/
def embeddingDimGuess (denseDim : Option Nat) (table : ChunkTable) : Option Nat :=
  match denseDim with
  | some d => some d
  | none =>
    (table.find? (fun e => ! e.2.dense.isEmpty)).map (fun e => e.2.dense.length)

/-- The chunk-id format `f"{note_id}:{start}:{end}:{index}"`. -/
def mkChunkId (note : String) (s e i : Nat) : String :=
  note ++ ":" ++ toString s ++ ":" ++ toString e ++ ":" ++ toString i

/-- `sorted(..., key=lambda t: (-t[1], t[0]))` on scored tuples. -/
def scoredLe (x y : Scored) : Prop :=
  y.base < x.base ∨ (x.base = y.base ∧ x.cid ≤ y.cid)

instance : DecidableRel scoredLe := fun x y => by
  unfold scoredLe
  infer_instance

/-- One iteration of the cheap-scoring loop of `context()` (source lines
2135–2263): skip (`ok none`) the cursor's own chunk, deleted chunks,
same-note chunks, low-information text, low-quality chunks and dimension
mismatches; raise when the stored quality field is missing; then gate and
score (oracled arithmetic). -/
def scoreStep (O : Oracles) (cfg : Config) (reqNote window currentChunkId : String)
    (windowDim : Nat) (table : ChunkTable) (cid : String) :
    Except String (Option Scored) :=
  if cid = currentChunkId then Except.ok none
  else
    match table.lookup cid with
    | none => Except.ok none
    | some meta =>
      if meta.note_id = reqNote then Except.ok none
      else if O.lowInfo meta.text then Except.ok none
      else
        match meta.quality with
        | none => Except.error
            "Context chunk quality is missing. Rebuild the semantic context index to populate it."
        | some q =>
          if ¬ cfg.minQuality = 0 ∧ q < cfg.minQuality then Except.ok none
          else if (O.nd meta.dense).length = 0 ∨
              ¬ (O.nd meta.dense).length = windowDim then Except.ok none
          else
              match O.gateAndScore window cid meta q with
              | none => Except.ok none
              | some (base, gapBest) => Except.ok (some ⟨cid, base, gapBest, none⟩)

/-- The scoring loop: `continue` on skips, propagate the raise, append keeps
in candidate order. -/
def scoreLoop (O : Oracles) (cfg : Config) (reqNote window currentChunkId : String)
    (windowDim : Nat) (table : ChunkTable) : List String → Except String (List Scored)
  | [] => Except.ok []
  | cid :: rest =>
    match scoreStep O cfg reqNote window currentChunkId windowDim table cid with
    | Except.error e => Except.error e
    | Except.ok none => scoreLoop O cfg reqNote window currentChunkId windowDim table rest
    | Except.ok (some entry) =>
      (scoreLoop O cfg reqNote window currentChunkId windowDim table rest).map
        (fun l => entry :: l)

/-- The `doc_ids`/`docs` extraction of `_apply_reranker`: the top slice's
chunks that still exist and have nonempty text. -/
def rerankDocPairs (table : ChunkTable) (cfg : Config) (scored : List Scored) :
    List (String × String) :=
  (scored.take (min cfg.rerankTopK scored.length)).filterMap (fun s =>
    match table.lookup s.cid with
    | some meta => if meta.text = "" then none else some (s.cid, meta.text)
    | none => none)

/-- The per-entry blend of `_apply_reranker`: entries with a raw reranker
score get `base + weight * norm(raw)` as both the tuple score and
`debug["combined"]`; the rest keep `base` and record it as combined. -/
def rerankBlend (weight lo : ℚ) (denom : Option ℚ) (rawById : List (String × ℚ))
    (s : Scored) : Scored :=
  match rawById.lookup s.cid with
  | some raw =>
    let c := s.base + weight * (match denom with
      | none => (0 : ℚ)
      | some d => (raw - lo) / d)
    ⟨s.cid, c, s.gapBest, some c⟩
  | none => ⟨s.cid, s.base, s.gapBest, some s.base⟩

/-- `ContextService._apply_reranker`: no-op on empty input, disabled reranker
or non-positive tunables; raises on missing or mismatched scores; otherwise
min–max-normalises the raw scores, blends them into the base score and
re-sorts. -/
def applyReranker (O : Oracles) (cfg : Config) (table : ChunkTable)
    (window : String) (scored : List Scored) : Except String (List Scored) :=
  if scored = [] then Except.ok scored
  else if O.rerankEnabled = false then Except.ok scored
  else if cfg.rerankTopK = 0 ∨ cfg.rerankWeight ≤ 0 then Except.ok scored
  else
    match O.rerank window ((rerankDocPairs table cfg scored).map Prod.snd) with
    | none => Except.error "Reranker returned no scores while enabled."
    | some rs =>
      if ¬ rs.length = (rerankDocPairs table cfg scored).length then
        Except.error "Reranker returned mismatched score count."
      else
        let rawById := (((rerankDocPairs table cfg scored).map Prod.fst).zip rs).foldl
          (fun m p => dictSet m p.1 p.2) []
        let rawVals := rawById.map Prod.snd
        let lo := listMinQ rawVals
        let hi := listMaxQ rawVals
        let denom := if 1 / 1000000000 < hi - lo then some (hi - lo) else none
        Except.ok (List.insertionSort scoredLe
          (scored.map (rerankBlend cfg.rerankWeight lo denom rawById)))

/-- The best-candidate scan of the MMR loop over `remaining[:250]`: the
index of the first strict maximum of the MMR objective (0 if nothing
scanned). -/
def mmrScan (O : Oracles) (cfg : Config) (table : ChunkTable) (reqNote : String)
    (gaps covered selNotes : List String) (selVecs : List Vec) :
    List Scored → Nat → Option ℚ → Nat → Nat
  | [], _, _, bestIdx => bestIdx
  | s :: rest, idx, best, bestIdx =>
    match table.lookup s.cid with
    | none => mmrScan O cfg table reqNote gaps covered selNotes selVecs rest
        (idx + 1) best bestIdx
    | some meta =>
      let vec := O.nd meta.dense
      let maxRed := selVecs.foldl (fun m sv => max m (dotQ vec sv)) 0
      let combined := s.combined.getD s.base
      let newly := ((meta.concepts.dedup.filter (fun c => c ∈ gaps)).filter
        (fun c => ¬ c ∈ covered)).length
      let notePenalty :=
        if ¬ meta.note_id = "" ∧ meta.note_id ∈ selNotes then cfg.noteRepeatPenalty else 0
      let crossPenalty :=
        if ¬ meta.note_id = "" ∧ ¬ meta.note_id = reqNote then cfg.crossNotePenalty else 0
      let mmr := combined + cfg.coverageWeight * (newly : ℚ) - cfg.mmrMu * maxRed -
        notePenalty - crossPenalty
      match best with
      | none => mmrScan O cfg table reqNote gaps covered selNotes selVecs rest
          (idx + 1) (some mmr) idx
      | some b =>
        if b < mmr then mmrScan O cfg table reqNote gaps covered selNotes selVecs rest
          (idx + 1) (some mmr) idx
        else mmrScan O cfg table reqNote gaps covered selNotes selVecs rest
          (idx + 1) best bestIdx

/-- The MMR selection loop (source lines 2283–2372).  Each iteration pops the
scan's best index, so the loop runs at most `remaining.length` times; the
fuel is instantiated with exactly that, making this the `while` loop. -/
def mmrLoop (O : Oracles) (cfg : Config) (table : ChunkTable) (reqNote : String)
    (gaps windowLexSet : List String) (localCursor : Nat) (currentChunkId : String)
    (limit : Nat) :
    Nat → List Scored → List Vec → List String → List String → List String →
    List Snippet → List Snippet
  | 0, _, _, _, _, _, selected => selected
  | fuel + 1, remaining, selVecs, covered, seenKeys, selNotes, selected =>
    if remaining = [] ∨ limit ≤ selected.length then selected
    else
      let bi := mmrScan O cfg table reqNote gaps covered selNotes selVecs
        (remaining.take 250) 0 none 0
      match remaining[bi]? with
      | none => selected
      | some s =>
        let remaining1 := remaining.eraseIdx bi
        match table.lookup s.cid with
        | none => mmrLoop O cfg table reqNote gaps windowLexSet localCursor
            currentChunkId limit fuel remaining1 selVecs covered seenKeys selNotes selected
        | some meta =>
          let selVecs1 := selVecs ++ [O.nd meta.dense]
          let covered1 := covered ++ (meta.concepts.dedup.filter
            (fun c => c ∈ gaps ∧ ¬ c ∈ covered))
          let selNotes1 :=
            if ¬ meta.note_id = "" then setAdd selNotes meta.note_id else selNotes
          let conceptTitle := match s.gapBest with
            | some g =>
              if g = "" then none
              else some (match O.conceptLabel g with
                | some l => if l = "" then g else l
                | none => g)
            | none => none
          let rawScore := s.combined.getD s.base
          let excerpt :=
            if s.cid = currentChunkId then O.excerptNear meta.text windowLexSet localCursor
            else O.excerptPlain meta.text windowLexSet
          if O.lowInfo excerpt then
            mmrLoop O cfg table reqNote gaps windowLexSet localCursor
              currentChunkId limit fuel remaining1 selVecs1 covered1 seenKeys selNotes1 selected
          else
            let excerptEval :=
              if pyStartsWith (pyLStrip excerpt) "#" then O.stripHeading excerpt else excerpt
            if ¬ cfg.minExcerptQuality = 0 ∧ O.chunkQuality excerptEval < cfg.minExcerptQuality then
              mmrLoop O cfg table reqNote gaps windowLexSet localCursor
                currentChunkId limit fuel remaining1 selVecs1 covered1 seenKeys selNotes1 selected
            else
              let k := O.exKey excerpt
              if ¬ k = "" ∧ k ∈ seenKeys then
                mmrLoop O cfg table reqNote gaps windowLexSet localCursor
                  currentChunkId limit fuel remaining1 selVecs1 covered1 seenKeys selNotes1 selected
              else
                let seen1 := if ¬ k = "" then seenKeys ++ [k] else seenKeys
                let snip : Snippet :=
                  ⟨meta.note_id, meta.chunk_id, excerpt,
                    max 0 (min 1 (O.sigmoid (cfg.scoreTemp * (rawScore - cfg.scoreBias)))),
                    conceptTitle⟩
                mmrLoop O cfg table reqNote gaps windowLexSet localCursor
                  currentChunkId limit fuel remaining1 selVecs1 covered1 seen1 selNotes1
                  (selected ++ [snip])

/-- `max(1, min(int(request.limit), max_results))`. -/
def limitOf (cfg : Config) (req : ContextRequest) : Nat :=
  (max 1 (min (req.limit : Int) cfg.maxResults)).toNat

/-- The normalised note text of a request. -/
def contextText (O : Oracles) (req : ContextRequest) : String :=
  O.normTextFn req.text

/-- `chunk_blocks` never returns an empty list (its final
`merged or [Block(0, 0, "")]`); the merging heuristics themselves are the
oracle. -/
def contextBlocks (O : Oracles) (req : ContextRequest) : List Block :=
  match O.chunkBlocksFn (contextText O req) with
  | [] => [⟨0, 0, ""⟩]
  | bs => bs

/-- The request's cursor block index. -/
def contextBlockIndex (O : Oracles) (req : ContextRequest) : Nat :=
  locateBlock (O.normCursorFn req.text req.cursor_offset) (contextBlocks O req) 0 0

/-- The block containing the cursor (the index is in range, so the default is
never used). -/
def contextCurrentBlock (O : Oracles) (req : ContextRequest) : Block :=
  (contextBlocks O req).getD (contextBlockIndex O req) ⟨0, 0, ""⟩

/-- The paragraph-level cache key `(note_id, block_index, sha1(block)[:12])`. -/
def contextCacheKey (O : Oracles) (req : ContextRequest) : String × Nat × String :=
  (req.note_id, contextBlockIndex O req, O.sha1_12 (contextCurrentBlock O req).text)

/-- The cursor chunk's id `f"{note_id}:{start}:{end}:{block_index}"`. -/
def currentChunkIdOf (O : Oracles) (req : ContextRequest) : String :=
  mkChunkId req.note_id (contextCurrentBlock O req).start
    (contextCurrentBlock O req).endPos (contextBlockIndex O req)

/-- `ContextService.context`.  Raising paths return `Except.error`; the ok
value is the snippet list and the updated service state.  The
`active_label_weights` table and the BM25 min–max normalisation feed only the
oracled scoring arithmetic and are not recomputed here. -/
def context (O : Oracles) (cfg : Config) (st : ServiceState) (req : ContextRequest) :
    Except String (List Snippet × ServiceState) :=
  let limit := limitOf cfg req
  let text := contextText O req
  let cursor := O.normCursorFn req.text req.cursor_offset
  let blockIndex := contextBlockIndex O req
  let currentBlock := contextCurrentBlock O req
  let cacheKey := contextCacheKey O req
  if st.cacheKey = some cacheKey then Except.ok (st.cacheValue.take limit, st)
  else
    let pfx := pyTake text cursor
    let prefixTail := pyTakeRight pfx 2500
    let windowRaw := pyStrip currentBlock.text
    if windowRaw = "" then
      Except.ok ([], { st with cacheKey := some cacheKey, cacheValue := [] })
    else
      let localCursor := min (cursor - currentBlock.start) windowRaw.length
      let window := pyStrip (O.clipTokens windowRaw localCursor)
      let windowTokenCount := (sparseTokenize window).length
      let windowLexSet := (O.lexTokens window).dedup
      let windowVec := O.embedWindow req.note_id window
      let dimBad := match embeddingDimGuess st.denseDim st.table with
        | some d => ! (d == windowVec.length)
        | none => false
      if dimBad then
        Except.error
          "Context index embedding dimension mismatch. Rebuild the semantic context index."
      else
        let prefixVec := O.computePrefixVec req.note_id blockIndex prefixTail
        let queryVec :=
          if windowTokenCount < cfg.shortWindowTokens ∧ prefixVec.isSome then
            match prefixVec with
            | some pv =>
              let mix := max 0 (min (1 / 2) cfg.mixWeight)
              if 0 < mix ∧ pv.length = windowVec.length then
                O.nd (vecAdd (vecScale (1 - mix) windowVec) (vecScale mix pv))
              else windowVec
            | none => windowVec
          else windowVec
        let active := (O.extractConcepts window).filterMap (fun label =>
          let n := O.normLabel label
          if n = "" then none else some (n, label))
        let activeIds := (active.map Prod.fst).dedup
        let gaps := (active.foldl (fun (acc : List String × List String) p =>
          if 2 ≤ O.countOccur pfx p.2 then (setAdd acc.1 p.1, acc.2)
          else
            match O.conceptCentroid p.1, prefixVec with
            | some cen, some pv =>
              if cfg.groundedTau ≤ dotQ pv cen then (setAdd acc.1 p.1, acc.2)
              else (acc.1, setAdd acc.2 p.1)
            | _, _ => (acc.1, setAdd acc.2 p.1)) ([], [])).2
        let activeLabelList := active.map Prod.snd
        let lexicalQuery0 :=
          if windowTokenCount < cfg.minLexTokens then
            let tail := pyStrip (pyTakeRight prefixTail 1200)
            if tail = "" then window else pyStrip (tail ++ "\n" ++ window)
          else window
        let lexicalQuery :=
          if activeLabelList = [] then lexicalQuery0
          else pyStrip (lexicalQuery0 ++ "\n" ++ joinSep " " (activeLabelList.take 8))
        let conceptIdsInW := List.insertionSort (fun a b : String => a ≤ b) activeIds
        let gapsSorted := List.insertionSort (fun a b : String => a ≤ b) gaps
        let cand1 := setAddAll [] (O.conceptChunks conceptIdsInW)
        let cand2 := setAddAll cand1 (O.conceptChunks gapsSorted)
        let cand3 := capAdd cand2 ((O.denseHits queryVec cfg.denseTopN).map Prod.fst)
        let cand4 := capAdd cand3 ((O.bm25Hits lexicalQuery cfg.bm25TopN).map Prod.fst)
        let candidates := List.insertionSort (fun a b : String => a ≤ b) cand4
        let currentChunkId := currentChunkIdOf O req
        match scoreLoop O cfg req.note_id window currentChunkId windowVec.length
            st.table candidates with
        | Except.error e => Except.error e
        | Except.ok scoredRaw =>
          let scoredSorted := List.insertionSort scoredLe scoredRaw
          let scoredCapped :=
            if cfg.maxCandidates < scoredSorted.length then
              scoredSorted.take cfg.maxCandidates
            else scoredSorted
          match applyReranker O cfg st.table window scoredCapped with
          | Except.error e => Except.error e
          | Except.ok scored2 =>
            let selected := mmrLoop O cfg st.table req.note_id gaps windowLexSet
              localCursor currentChunkId limit scored2.length scored2 [] [] [] [] []
            Except.ok (selected, { st with cacheKey := some cacheKey, cacheValue := selected })

/-! ## Chunk ids: the three numeric fields are colon-free, so equal ids have
equal note components. -/

theorem digitChar_ne_colon : ∀ d, d < 10 → ¬ Nat.digitChar d = ':' := by decide

theorem toDigitsCore_ne_colon (fuel : Nat) :
    ∀ (n : Nat) (acc : List Char), (∀ c ∈ acc, ¬ c = ':') →
    ∀ c ∈ Nat.toDigitsCore 10 fuel n acc, ¬ c = ':' := by
  induction fuel with
  | zero =>
    intro n acc hacc c hc
    rw [Nat.toDigitsCore] at hc
    exact hacc c hc
  | succ fuel ih =>
    intro n acc hacc c hc
    rw [Nat.toDigitsCore] at hc
    have hstep : ∀ x ∈ Nat.digitChar (n % 10) :: acc, ¬ x = ':' := by
      intro x hx
      rcases List.mem_cons.mp hx with hx | hx
      · subst hx
        exact digitChar_ne_colon _ (Nat.mod_lt _ (by norm_num))
      · exact hacc x hx
    rcases hdiv : n / 10 with _ | m
    · rw [hdiv] at hc
      exact hstep c hc
    · rw [hdiv] at hc
      exact ih (m + 1) _ hstep c hc

theorem toDigitsCore_ne_nil (fuel : Nat) :
    ∀ (n : Nat) (acc : List Char), ¬ Nat.toDigitsCore 10 (fuel + 1) n acc = [] := by
  induction fuel with
  | zero =>
    intro n acc h
    rw [Nat.toDigitsCore] at h
    by_cases hdiv : n / 10 = 0
    · rw [if_pos hdiv] at h
      exact List.noConfusion h
    · rw [if_neg hdiv, Nat.toDigitsCore] at h
      exact List.noConfusion h
  | succ fuel ih =>
    intro n acc h
    rw [Nat.toDigitsCore] at h
    by_cases hdiv : n / 10 = 0
    · rw [if_pos hdiv] at h
      exact List.noConfusion h
    · rw [if_neg hdiv] at h
      exact ih (n / 10) _ h

theorem natRepr_ne_colon (n : Nat) : ∀ c ∈ (toString n).data, ¬ c = ':' := by
  intro c hc
  have : (toString n).data = Nat.toDigits 10 n := rfl
  rw [this, Nat.toDigits] at hc
  exact toDigitsCore_ne_colon _ _ _ (by intro x hx; cases hx) c hc

theorem natRepr_ne_nil (n : Nat) : ¬ (toString n).data = [] := by
  intro h
  have : (toString n).data = Nat.toDigits 10 n := rfl
  rw [this, Nat.toDigits] at h
  exact toDigitsCore_ne_nil n n [] h

theorem append_colon_inj :
    ∀ (a1 : List Char) {a2 b1 b2 : List Char}, (∀ c ∈ a1, ¬ c = ':') →
    (∀ c ∈ a2, ¬ c = ':') → a1 ++ ':' :: b1 = a2 ++ ':' :: b2 →
    a1 = a2 ∧ b1 = b2 := by
  intro a1
  induction a1 with
  | nil =>
    intro a2 b1 b2 _ h2 h
    cases a2 with
    | nil =>
      simp only [List.nil_append] at h
      exact ⟨rfl, (List.cons.injEq _ _ _ _ ▸ h).2⟩
    | cons x a2 =>
      simp only [List.nil_append, List.cons_append, List.cons.injEq] at h
      exact absurd h.1.symm (h2 x (List.mem_cons_self _ _))
  | cons x a1 ih =>
    intro a2 b1 b2 h1 h2 h
    cases a2 with
    | nil =>
      simp only [List.cons_append, List.nil_append, List.cons.injEq] at h
      exact absurd h.1 (h1 x (List.mem_cons_self _ _))
    | cons y a2 =>
      simp only [List.cons_append, List.cons.injEq] at h
      obtain ⟨hxy, hrest⟩ := h
      obtain ⟨ha, hb⟩ := ih (fun c hc => h1 c (List.mem_cons_of_mem _ hc))
        (fun c hc => h2 c (List.mem_cons_of_mem _ hc)) hrest
      exact ⟨by rw [hxy, ha], hb⟩

theorem mkChunkId_data (n : String) (s e i : Nat) :
    (mkChunkId n s e i).data =
      n.data ++ ':' :: ((toString s).data ++ ':' :: ((toString e).data ++
        ':' :: (toString i).data)) := by
  simp [mkChunkId, String.data_append]

theorem rev_colon_free (l : List Char) (h : ∀ c ∈ l, ¬ c = ':') :
    ∀ c ∈ l.reverse, ¬ c = ':' := by
  intro c hc
  exact h c (List.mem_reverse.mp hc)

/-- Equal chunk ids have equal note components: the span and index fields are
colon-free decimal digit strings, so peeling them from the right is
unambiguous even when the note id itself contains colons. -/
theorem mkChunkId_note_inj {n1 n2 : String} {s1 e1 i1 s2 e2 i2 : Nat}
    (h : mkChunkId n1 s1 e1 i1 = mkChunkId n2 s2 e2 i2) : n1 = n2 := by
  have hd : (mkChunkId n1 s1 e1 i1).data = (mkChunkId n2 s2 e2 i2).data := by rw [h]
  rw [mkChunkId_data, mkChunkId_data] at hd
  have hrev := congrArg List.reverse hd
  simp only [List.reverse_append, List.reverse_cons, List.append_assoc,
    List.cons_append, List.nil_append] at hrev
  have h1 := append_colon_inj _ (rev_colon_free _ (natRepr_ne_colon i1))
    (rev_colon_free _ (natRepr_ne_colon i2)) hrev
  have h2 := append_colon_inj _ (rev_colon_free _ (natRepr_ne_colon e1))
    (rev_colon_free _ (natRepr_ne_colon e2)) h1.2
  have h3 := append_colon_inj _ (rev_colon_free _ (natRepr_ne_colon s1))
    (rev_colon_free _ (natRepr_ne_colon s2)) h2.2
  have : n1.data = n2.data := by
    have := congrArg List.reverse h3.2
    simpa using this
  cases n1
  cases n2
  exact congrArg String.mk this

/-! ## Stage lemmas for the `context()` pipeline -/

theorem nodup_getElem_not_mem_eraseIdx {α β : Type} (f : α → β)
    (l : List α) (i : Nat) (x : α) (hx : l[i]? = some x)
    (hnd : (l.map f).Nodup) : ¬ f x ∈ (l.eraseIdx i).map f := by
  obtain ⟨hi, hgl⟩ := List.getElem?_eq_some.mp hx
  rw [List.eraseIdx_eq_take_drop_succ, List.map_append]
  have hsplit : l.map f = (l.take i).map f ++ f x :: (l.drop (i + 1)).map f := by
    conv_lhs => rw [← List.take_append_drop i l]
    rw [List.map_append, ← List.getElem_cons_drop l i hi, hgl, List.map_cons]
  rw [hsplit] at hnd
  rw [List.nodup_append] at hnd
  intro hmem
  rcases List.mem_append.mp hmem with hmem | hmem
  · exact (hnd.2.2 hmem (List.mem_cons_self _ _))
  · exact (List.nodup_cons.mp hnd.2.1).1 hmem

/-- What the scoring loop guarantees about every kept entry. -/
def scoredP (table : ChunkTable) (reqNote currentChunkId : String) (s : Scored) : Prop :=
  ¬ s.cid = currentChunkId ∧
    ∃ m, table.lookup s.cid = some m ∧ ¬ m.note_id = reqNote

theorem scoreStep_spec (O : Oracles) (cfg : Config)
    (reqNote window currentChunkId : String) (windowDim : Nat) (table : ChunkTable)
    (cid : String) (s : Scored)
    (h : scoreStep O cfg reqNote window currentChunkId windowDim table cid =
      Except.ok (some s)) :
    s.cid = cid ∧ scoredP table reqNote currentChunkId s := by
  unfold scoreStep at h
  split at h
  · simp at h
  · rename_i hcur
    split at h
    · simp at h
    · rename_i meta hlk
      split at h
      · simp at h
      · rename_i hnote
        split at h
        · simp at h
        · split at h
          · exact Except.noConfusion h
          · rename_i q hq
            split at h
            · simp at h
            · split at h
              · simp at h
              · split at h
                · simp at h
                · rename_i p hg
                  simp only [Except.ok.injEq, Option.some.injEq] at h
                  subst h
                  exact ⟨rfl, hcur, meta, hlk, hnote⟩

theorem scoreLoop_spec (O : Oracles) (cfg : Config)
    (reqNote window currentChunkId : String) (windowDim : Nat) (table : ChunkTable) :
    ∀ (cands : List String) (l : List Scored),
    scoreLoop O cfg reqNote window currentChunkId windowDim table cands =
      Except.ok l →
    (l.map Scored.cid).Sublist cands ∧
    ∀ s ∈ l, scoredP table reqNote currentChunkId s := by
  intro cands
  induction cands with
  | nil =>
    intro l h
    simp only [scoreLoop] at h
    cases h
    exact ⟨List.Sublist.refl _, by intro s hs; cases hs⟩
  | cons cid rest ih =>
    intro l h
    simp only [scoreLoop] at h
    cases hstep : scoreStep O cfg reqNote window currentChunkId windowDim table cid with
    | error e =>
      rw [hstep] at h
      exact Except.noConfusion h
    | ok o =>
      rw [hstep] at h
      cases o with
      | none =>
        obtain ⟨hsub, hp⟩ := ih _ h
        exact ⟨List.Sublist.cons _ hsub, hp⟩
      | some entry =>
        cases hrest : scoreLoop O cfg reqNote window currentChunkId
            windowDim table rest with
        | error e =>
          rw [hrest] at h
          exact Except.noConfusion h
        | ok l0 =>
          rw [hrest] at h
          obtain ⟨hsub, hp⟩ := ih _ hrest
          simp only [Except.map, Except.ok.injEq] at h
          subst h
          obtain ⟨hcid, hP⟩ := scoreStep_spec O cfg reqNote window currentChunkId
            windowDim table cid entry hstep
          refine ⟨?_, ?_⟩
          · rw [List.map_cons, hcid]
            exact hsub.cons₂ cid
          · intro s hs
            rcases List.mem_cons.mp hs with hs | hs
            · subst hs
              exact hP
            · exact hp s hs

theorem applyReranker_spec (O : Oracles) (cfg : Config) (table : ChunkTable)
    (window : String) (scored out : List Scored)
    (h : applyReranker O cfg table window scored = Except.ok out) :
    (out.map Scored.cid).Perm (scored.map Scored.cid) ∧
    ∀ s ∈ out, ∃ s0 ∈ scored, s.cid = s0.cid ∧ s.gapBest = s0.gapBest := by
  unfold applyReranker at h
  by_cases h1 : scored = []
  · rw [if_pos h1] at h
    cases h
    exact ⟨List.Perm.refl _, fun s hs => ⟨s, hs, rfl, rfl⟩⟩
  · rw [if_neg h1] at h
    by_cases h2 : O.rerankEnabled = false
    · rw [if_pos h2] at h
      cases h
      exact ⟨List.Perm.refl _, fun s hs => ⟨s, hs, rfl, rfl⟩⟩
    · rw [if_neg h2] at h
      by_cases h3 : cfg.rerankTopK = 0 ∨ cfg.rerankWeight ≤ 0
      · rw [if_pos h3] at h
        cases h
        exact ⟨List.Perm.refl _, fun s hs => ⟨s, hs, rfl, rfl⟩⟩
      · rw [if_neg h3] at h
        split at h
        · exact Except.noConfusion h
        · rename_i rs hr
          split at h
          · exact Except.noConfusion h
          · rename_i h4
            cases h
            have hcid : ∀ (w lo : ℚ) (dn : Option ℚ) (m : List (String × ℚ)) (s : Scored),
                (rerankBlend w lo dn m s).cid = s.cid ∧
                (rerankBlend w lo dn m s).gapBest = s.gapBest := by
              intro w lo dn m s
              unfold rerankBlend
              cases m.lookup s.cid <;> exact ⟨rfl, rfl⟩
            have hfun : ∀ (w lo : ℚ) (dn : Option ℚ) (m : List (String × ℚ)),
                (Scored.cid ∘ rerankBlend w lo dn m) = Scored.cid := by
              intro w lo dn m
              funext s
              exact (hcid w lo dn m s).1
            constructor
            · refine ((List.perm_insertionSort scoredLe _).map Scored.cid).trans ?_
              rw [List.map_map, hfun]
            · intro s hs
              have hs2 := (List.perm_insertionSort scoredLe _).mem_iff.mp hs
              obtain ⟨s0, hs0, hmap⟩ := List.mem_map.mp hs2
              refine ⟨s0, hs0, ?_, ?_⟩
              · rw [← hmap]
                exact (hcid _ _ _ _ s0).1
              · rw [← hmap]
                exact (hcid _ _ _ _ s0).2

/-- Well-formed chunk table: each key is the chunk's own id in the
`note:start:end:index` format. -/
def TableWF (table : ChunkTable) : Prop :=
  ∀ p ∈ table, p.2.chunk_id = p.1 ∧ ∃ a b c : Nat, p.1 = mkChunkId p.2.note_id a b c

/-- What every returned snippet satisfies: it is cross-note, and its chunk id
cannot be any chunk id of the requesting note. -/
def snippetQ (reqNote : String) (sn : Snippet) : Prop :=
  ¬ sn.note_id = reqNote ∧ ∀ a b c : Nat, ¬ sn.chunk_id = mkChunkId reqNote a b c

/-- The safety contract of the selection output. -/
def SelOut (limit : Nat) (reqNote : String) (out : List Snippet) : Prop :=
  out.length ≤ limit ∧ (out.map Snippet.chunk_id).Nodup ∧
    ∀ sn ∈ out, snippetQ reqNote sn

set_option maxHeartbeats 2000000 in
theorem mmrLoop_spec (O : Oracles) (cfg : Config) (table : ChunkTable)
    (reqNote : String) (gaps windowLexSet : List String) (localCursor : Nat)
    (currentChunkId : String) (limit : Nat) (hwf : TableWF table) :
    ∀ (fuel : Nat) (remaining : List Scored) (selVecs : List Vec)
      (covered seenKeys selNotes : List String) (selected : List Snippet),
    (remaining.map Scored.cid).Nodup →
    (∀ s ∈ remaining, ∃ m, table.lookup s.cid = some m ∧ ¬ m.note_id = reqNote) →
    (∀ sn ∈ selected, ¬ sn.chunk_id ∈ remaining.map Scored.cid) →
    (selected.map Snippet.chunk_id).Nodup →
    (∀ sn ∈ selected, snippetQ reqNote sn) →
    selected.length ≤ limit →
    SelOut limit reqNote (mmrLoop O cfg table reqNote gaps windowLexSet localCursor
      currentChunkId limit fuel remaining selVecs covered seenKeys selNotes selected) := by
  intro fuel
  induction fuel with
  | zero =>
    intro remaining selVecs covered seenKeys selNotes selected _ _ _ hsnd hQ hlen
    simp only [mmrLoop]
    exact ⟨hlen, hsnd, hQ⟩
  | succ fuel ih =>
    intro remaining selVecs covered seenKeys selNotes selected hrnd hP hdisj hsnd hQ hlen
    simp only [mmrLoop]
    by_cases hguard : remaining = [] ∨ limit ≤ selected.length
    · rw [if_pos hguard]
      exact ⟨hlen, hsnd, hQ⟩
    · rw [if_neg hguard]
      generalize mmrScan O cfg table reqNote gaps covered selNotes selVecs
        (remaining.take 250) 0 none 0 = bi
      split
      · exact ⟨hlen, hsnd, hQ⟩
      · rename_i s hseq
        have hsmem : s ∈ remaining := by
          obtain ⟨hi, hg⟩ := List.getElem?_eq_some.mp hseq
          rw [← hg]
          exact List.getElem_mem hi
        have hsub1 := (List.eraseIdx_sublist remaining bi).map Scored.cid
        have hrnd1 := List.Nodup.sublist hsub1 hrnd
        have hP1 : ∀ t ∈ remaining.eraseIdx bi, ∃ m,
            table.lookup t.cid = some m ∧ ¬ m.note_id = reqNote :=
          fun t ht => hP t ((List.eraseIdx_sublist remaining bi).subset ht)
        have hdisj1 : ∀ sn ∈ selected,
            ¬ sn.chunk_id ∈ (remaining.eraseIdx bi).map Scored.cid :=
          fun sn hsn hmem => hdisj sn hsn (hsub1.subset hmem)
        split
        · exact ih _ _ _ _ _ _ hrnd1 hP1 hdisj1 hsnd hQ hlen
        · rename_i meta hlk
          have hnotin := nodup_getElem_not_mem_eraseIdx Scored.cid remaining bi s hseq hrnd
          obtain ⟨m, hm, hmn⟩ := hP s hsmem
          rw [hlk] at hm
          cases hm
          have hpair := lookup_mem hlk
          obtain ⟨hkey, a, b, c, hform⟩ := hwf _ hpair
          have hkey2 : meta.chunk_id = s.cid := hkey
          have hform2 : s.cid = mkChunkId meta.note_id a b c := hform
          have hscid : ∀ a1 b1 c1 : Nat, ¬ s.cid = mkChunkId reqNote a1 b1 c1 := by
            intro a1 b1 c1 hEq
            exact hmn (mkChunkId_note_inj (hform2.symm.trans hEq))
          have hsnotsel : ¬ s.cid ∈ selected.map Snippet.chunk_id := by
            intro hmem
            obtain ⟨sn, hsn, hsneq⟩ := List.mem_map.mp hmem
            exact hdisj sn hsn (by rw [hsneq]; exact List.mem_map_of_mem Scored.cid hsmem)
          have happarg : ∀ sn2 : Snippet, sn2.chunk_id = s.cid →
              (∀ sn ∈ selected ++ [sn2],
                ¬ sn.chunk_id ∈ (remaining.eraseIdx bi).map Scored.cid) ∧
              ((selected ++ [sn2]).map Snippet.chunk_id).Nodup ∧
              (sn2.note_id = meta.note_id →
                ∀ sn ∈ selected ++ [sn2], snippetQ reqNote sn) ∧
              (selected ++ [sn2]).length ≤ limit := by
            intro sn2 hsn2
            push_neg at hguard
            refine ⟨?_, ?_, ?_, ?_⟩
            · intro sn hsn
              rcases List.mem_append.mp hsn with hsn | hsn
              · exact hdisj1 sn hsn
              · rw [List.mem_singleton] at hsn
                subst hsn
                rw [hsn2]
                exact hnotin
            · rw [List.map_append, List.map_singleton]
              exact nodup_append_singleton hsnd (by rw [hsn2]; exact hsnotsel)
            · intro hnid sn hsn
              rcases List.mem_append.mp hsn with hsn | hsn
              · exact hQ sn hsn
              · rw [List.mem_singleton] at hsn
                subst hsn
                refine ⟨by rw [hnid]; exact hmn, ?_⟩
                intro a1 b1 c1 hEq
                rw [hsn2] at hEq
                exact hscid a1 b1 c1 hEq
            · rw [List.length_append, List.length_singleton]
              omega
          repeat' split
          all_goals
            first
              | exact ih _ _ _ _ _ _ hrnd1 hP1 hdisj1 hsnd hQ hlen
              | exact ih _ _ _ _ _ _ hrnd1 hP1 (happarg _ hkey2).1
                  (happarg _ hkey2).2.1 ((happarg _ hkey2).2.2.1 rfl)
                  (happarg _ hkey2).2.2.2

theorem setAdd_nodup (l : List String) (x : String) (h : l.Nodup) :
    (setAdd l x).Nodup := by
  unfold setAdd
  split
  · exact h
  · rename_i hx
    exact nodup_append_singleton h hx

theorem setAddAll_nodup (xs : List String) :
    ∀ l : List String, l.Nodup → (setAddAll l xs).Nodup := by
  induction xs with
  | nil => intro l h; exact h
  | cons x xs ih =>
    intro l h
    exact ih _ (setAdd_nodup l x h)

theorem capAdd_nodup (xs : List String) :
    ∀ l : List String, l.Nodup → (capAdd l xs).Nodup := by
  induction xs with
  | nil => intro l h; exact h
  | cons x xs ih =>
    intro l h
    simp only [capAdd]
    split
    · exact setAdd_nodup l x h
    · exact ih _ (setAdd_nodup l x h)

theorem ite_take_sublist {α : Type} (c : Prop) [Decidable c] (l : List α) (n : Nat) :
    (if c then l.take n else l).Sublist l := by
  split
  · exact List.take_sublist n l
  · exact List.Sublist.refl l

/-- The paragraph cache invariant: whatever is cached under a key satisfies
the selection safety contract for that key's note. -/
def CacheInv (st : ServiceState) : Prop :=
  ∀ key, st.cacheKey = some key →
    (st.cacheValue.map Snippet.chunk_id).Nodup ∧
    ∀ sn ∈ st.cacheValue, snippetQ key.1 sn

set_option maxHeartbeats 2000000 in
theorem context_run_spec (O : Oracles) (cfg : Config) (st : ServiceState)
    (req : ContextRequest) (res : List Snippet) (st2 : ServiceState)
    (hwf : TableWF st.table) (hcache : CacheInv st)
    (hrun : context O cfg st req = Except.ok (res, st2)) :
    res.length ≤ limitOf cfg req ∧
    (res.map Snippet.chunk_id).Nodup ∧
    (∀ sn ∈ res, snippetQ req.note_id sn) ∧
    CacheInv st2 := by
  simp only [context] at hrun
  split at hrun
  · -- cache hit
    rename_i hhit
    simp only [Except.ok.injEq, Prod.mk.injEq] at hrun
    obtain ⟨hres, hst2⟩ := hrun
    subst hres
    subst hst2
    obtain ⟨hnd, hq⟩ := hcache _ hhit
    refine ⟨List.length_take_le _ _, ?_, ?_, hcache⟩
    · exact List.Nodup.sublist ((List.take_sublist _ _).map _) hnd
    · intro sn hsn
      exact hq sn (List.take_subset _ _ hsn)
  · rename_i hhit
    split at hrun
    · -- empty window: store the empty value and return []
      rename_i hwr
      simp only [Except.ok.injEq, Prod.mk.injEq] at hrun
      obtain ⟨hres, hst2⟩ := hrun
      subst hres
      subst hst2
      refine ⟨by simp, by simp, by simp, ?_⟩
      intro key hk
      refine ⟨by simp, by simp⟩
    · rename_i hwr
      split at hrun
      · exact Except.noConfusion hrun
      · rename_i hdim
        split at hrun
        · exact Except.noConfusion hrun
        · rename_i scoredRaw hscored
          split at hrun
          · exact Except.noConfusion hrun
          · rename_i scored2 hrr
            simp only [Except.ok.injEq, Prod.mk.injEq] at hrun
            obtain ⟨hres, hst2⟩ := hrun
            obtain ⟨hraw_sub, hraw_p⟩ := scoreLoop_spec O cfg req.note_id _ _ _ _ _ _ hscored
            obtain ⟨hperm2, hpoint2⟩ := applyReranker_spec O cfg st.table _ _ _ hrr
            have hraw_nd : (scoredRaw.map Scored.cid).Nodup := by
              refine List.Nodup.sublist hraw_sub ?_
              exact ((List.perm_insertionSort _ _).nodup_iff).mpr
                (capAdd_nodup _ _ (capAdd_nodup _ _ (setAddAll_nodup _ _
                  (setAddAll_nodup _ _ List.nodup_nil))))
            have hsorted_nd : ((List.insertionSort scoredLe scoredRaw).map Scored.cid).Nodup :=
              (((List.perm_insertionSort scoredLe scoredRaw).map Scored.cid).nodup_iff).mpr
                hraw_nd
            have hcapped_nd : ((if cfg.maxCandidates <
                  (List.insertionSort scoredLe scoredRaw).length then
                  (List.insertionSort scoredLe scoredRaw).take cfg.maxCandidates
                else List.insertionSort scoredLe scoredRaw).map Scored.cid).Nodup :=
              List.Nodup.sublist ((ite_take_sublist _ _ _).map _) hsorted_nd
            have hnd2 : (scored2.map Scored.cid).Nodup :=
              (hperm2.nodup_iff).mpr hcapped_nd
            have hp2 : ∀ s ∈ scored2, ∃ m, st.table.lookup s.cid = some m ∧
                ¬ m.note_id = req.note_id := by
              intro s hs
              obtain ⟨s0, hs0, hcid, _⟩ := hpoint2 s hs
              have hs0s : s0 ∈ List.insertionSort scoredLe scoredRaw :=
                (ite_take_sublist _ _ _).subset hs0
              have hs0r : s0 ∈ scoredRaw :=
                (List.perm_insertionSort scoredLe scoredRaw).subset hs0s
              obtain ⟨_, m, hm, hmn⟩ := hraw_p s0 hs0r
              exact ⟨m, by rw [hcid]; exact hm, hmn⟩
            have hout : SelOut (limitOf cfg req) req.note_id res := by
              rw [← hres]
              exact mmrLoop_spec O cfg st.table req.note_id _ _ _ _
                (limitOf cfg req) hwf scored2.length scored2 [] [] [] [] []
                hnd2 hp2 (by intro sn hsn; cases hsn) List.nodup_nil
                (by intro sn hsn; cases hsn) (by simp)
            obtain ⟨hlen, hnd, hq⟩ := hout
            rw [hres] at hst2
            refine ⟨hlen, hnd, hq, ?_⟩
            intro key hk
            rw [← hst2] at hk
            have hk2 : some (contextCacheKey O req) = some key := hk
            cases hk2
            rw [← hst2]
            exact ⟨hnd, hq⟩

set_option maxHeartbeats 1000000 in
theorem mmrLoop_length (O : Oracles) (cfg : Config) (table : ChunkTable)
    (reqNote : String) (gaps windowLexSet : List String) (localCursor : Nat)
    (currentChunkId : String) (limit : Nat) :
    ∀ (fuel : Nat) (remaining : List Scored) (selVecs : List Vec)
      (covered seenKeys selNotes : List String) (selected : List Snippet),
    selected.length ≤ limit →
    (mmrLoop O cfg table reqNote gaps windowLexSet localCursor currentChunkId limit
      fuel remaining selVecs covered seenKeys selNotes selected).length ≤ limit := by
  intro fuel
  induction fuel with
  | zero =>
    intro remaining selVecs covered seenKeys selNotes selected hlen
    simpa only [mmrLoop] using hlen
  | succ fuel ih =>
    intro remaining selVecs covered seenKeys selNotes selected hlen
    simp only [mmrLoop]
    by_cases hguard : remaining = [] ∨ limit ≤ selected.length
    · rw [if_pos hguard]
      exact hlen
    · rw [if_neg hguard]
      push_neg at hguard
      have hlen2 : selected.length + 1 ≤ limit := hguard.2
      split
      · exact hlen
      · repeat' split
        all_goals
          first
            | exact ih _ _ _ _ _ _ hlen
            | exact ih _ _ _ _ _ _ (by rw [List.length_append, List.length_singleton]; omega)

/-- C1: the result of `context()` never exceeds the request's `limit` (the
pydantic bound `1 ≤ limit` is the first hypothesis), never contains the
cursor block's own chunk id, and never contains two snippets with the same
chunk id.  The table hypothesis states what indexing guarantees: each entry
is keyed by its own `note:start:end:index` chunk id; the cache hypothesis is
the invariant that `context()` itself maintains (re-established in the
conclusion of `Grimoire.context_run_spec`). -/
theorem context_result_bounds (O : Oracles) (cfg : Config) (st : ServiceState)
    (req : ContextRequest) (res : List Snippet) (st2 : ServiceState)
    (hlim : 1 ≤ req.limit) (hwf : TableWF st.table) (hcache : CacheInv st)
    (hrun : context O cfg st req = Except.ok (res, st2)) :
    res.length ≤ req.limit ∧
    (∀ sn ∈ res, ¬ sn.chunk_id = currentChunkIdOf O req) ∧
    (res.map Snippet.chunk_id).Nodup := by
  obtain ⟨hlen, hnd, hq, _⟩ := context_run_spec O cfg st req res st2 hwf hcache hrun
  refine ⟨?_, ?_, hnd⟩
  · refine le_trans hlen ?_
    unfold limitOf
    rw [Int.toNat_le]
    rcases le_total (req.limit : Int) cfg.maxResults with h | h
    · rw [min_eq_left h]
      exact max_le (by exact_mod_cast hlim) le_rfl
    · rw [min_eq_right h]
      exact max_le (by exact_mod_cast hlim) h
  · intro sn hsn hEq
    exact (hq sn hsn).2 _ _ _ hEq

/-- C10: every snippet `context()` returns comes from a note other than the
requested one: the scoring loop discards every same-note chunk, so the
same-note branch of the scoring formula is dead for returned results, and the
cache invariant carries the property across cache hits. -/
theorem context_snippets_cross_note (O : Oracles) (cfg : Config) (st : ServiceState)
    (req : ContextRequest) (res : List Snippet) (st2 : ServiceState)
    (hwf : TableWF st.table) (hcache : CacheInv st)
    (hrun : context O cfg st req = Except.ok (res, st2)) :
    ∀ sn ∈ res, ¬ sn.note_id = req.note_id := by
  obtain ⟨_, _, hq, _⟩ := context_run_spec O cfg st req res st2 hwf hcache hrun
  exact fun sn hsn => (hq sn hsn).1

/-- A concrete oracle assignment used to evaluate the pipeline on small
inputs. -/
def oracleW : Oracles :=
  { normTextFn := fun t => t
    normCursorFn := fun _ _ => 0
    chunkBlocksFn := fun _ => []
    sha1_12 := fun _ => "h"
    clipTokens := fun t _ => t
    lexTokens := fun _ => []
    embedWindow := fun _ _ => [1]
    computePrefixVec := fun _ _ _ => none
    nd := fun v => v
    extractConcepts := fun _ => []
    normLabel := fun s => s
    countOccur := fun _ _ => 0
    conceptCentroid := fun _ => none
    conceptChunks := fun _ => []
    conceptLabel := fun _ => none
    denseHits := fun _ _ => []
    bm25Hits := fun _ _ => []
    lowInfo := fun _ => false
    gateAndScore := fun _ _ _ _ => none
    rerankEnabled := false
    rerank := fun _ _ => none
    excerptNear := fun t _ _ => t
    excerptPlain := fun t _ => t
    stripHeading := fun t => t
    chunkQuality := fun _ => 0
    exKey := fun t => t
    sigmoid := fun x => x }

/-- The tunables at small concrete values. -/
def cfgW : Config :=
  { maxResults := 3
    groundedTau := 0
    shortWindowTokens := 0
    mixWeight := 0
    minLexTokens := 0
    denseTopN := 0
    bm25TopN := 0
    minQuality := 0
    maxCandidates := 500
    rerankTopK := 0
    rerankWeight := 0
    mmrMu := 0
    coverageWeight := 0
    noteRepeatPenalty := 0
    crossNotePenalty := 0
    scoreTemp := 0
    scoreBias := 0
    minExcerptQuality := 0 }

/-- Witness for C1 at a blank note: the empty-paragraph early return. -/
theorem context_result_bounds_witness :
    ([] : List Snippet).length ≤ 1 ∧
    (∀ sn ∈ ([] : List Snippet),
      ¬ sn.chunk_id = currentChunkIdOf oracleW ⟨"n1", "", 0, 1⟩) ∧
    (([] : List Snippet).map Snippet.chunk_id).Nodup :=
  context_result_bounds oracleW cfgW ⟨[], none, none, []⟩ ⟨"n1", "", 0, 1⟩
    [] ⟨[], none, some ("n1", 0, "h"), []⟩ (by decide)
    (fun p hp => absurd hp (List.not_mem_nil p))
    (fun _ hk => Option.noConfusion hk) rfl

/-- Witness for C10 on a cache hit whose stored snippet points at another
note. -/
theorem context_snippets_cross_note_witness :
    ¬ (⟨"m", "m:0:1:0", "t", 1, none⟩ : Snippet).note_id = "n2" := by
  have h := context_snippets_cross_note oracleW cfgW
    ⟨[], none, some ("n2", 0, "h"), [⟨"m", "m:0:1:0", "t", 1, none⟩]⟩
    ⟨"n2", "", 0, 7⟩ [⟨"m", "m:0:1:0", "t", 1, none⟩]
    ⟨[], none, some ("n2", 0, "h"), [⟨"m", "m:0:1:0", "t", 1, none⟩]⟩
    (fun p hp => absurd hp (List.not_mem_nil p))
    (by
      intro key hk
      cases hk
      refine ⟨by decide, ?_⟩
      intro sn hsn
      rw [List.mem_singleton] at hsn
      subst hsn
      refine ⟨by decide, ?_⟩
      intro a b c hEq
      have h0 : mkChunkId "m" 0 1 0 = "m:0:1:0" := rfl
      exact absurd (mkChunkId_note_inj (h0.trans hEq)) (by decide))
    rfl
  exact h ⟨"m", "m:0:1:0", "t", 1, none⟩ (List.mem_singleton_self _)

/-- C8: two consecutive `context()` calls against the same note text with the
same `limit` and cursors locating the same paragraph return identical result
lists: the first call leaves the cache loaded under the
`(note_id, block_index, sha1(block)[:12])` key, and the second call hits it
and returns the cached list truncated to `limit` — which is the first call's
result. -/
theorem context_cache_idempotent (O : Oracles) (cfg : Config) (st : ServiceState)
    (r1 r2 : ContextRequest) (res1 res2 : List Snippet) (st1 st2 : ServiceState)
    (hnote : r2.note_id = r1.note_id) (hlimit : r2.limit = r1.limit)
    (htext : r2.text = r1.text)
    (hblock : contextBlockIndex O r2 = contextBlockIndex O r1)
    (hrun1 : context O cfg st r1 = Except.ok (res1, st1))
    (hrun2 : context O cfg st1 r2 = Except.ok (res2, st2)) :
    res2 = res1 := by
  have htxt : contextText O r2 = contextText O r1 := by
    unfold contextText
    rw [htext]
  have hblocks : contextBlocks O r2 = contextBlocks O r1 := by
    unfold contextBlocks
    rw [htxt]
  have hcur : contextCurrentBlock O r2 = contextCurrentBlock O r1 := by
    unfold contextCurrentBlock
    rw [hblocks, hblock]
  have hck : contextCacheKey O r2 = contextCacheKey O r1 := by
    unfold contextCacheKey
    rw [hnote, hblock, hcur]
  have hlim : limitOf cfg r2 = limitOf cfg r1 := by
    unfold limitOf
    rw [hlimit]
  have hkey1 : st1.cacheKey = some (contextCacheKey O r1) ∧
      res1 = st1.cacheValue.take (limitOf cfg r1) := by
    simp only [context] at hrun1
    split at hrun1
    · rename_i hhit
      simp only [Except.ok.injEq, Prod.mk.injEq] at hrun1
      obtain ⟨hres, hst⟩ := hrun1
      subst hst
      exact ⟨hhit, hres.symm⟩
    · rename_i hhit
      split at hrun1
      · rename_i hwr
        simp only [Except.ok.injEq, Prod.mk.injEq] at hrun1
        obtain ⟨hres, hst⟩ := hrun1
        subst hres
        refine ⟨by rw [← hst], ?_⟩
        rw [← hst, List.take_nil]
      · rename_i hwr
        split at hrun1
        · exact Except.noConfusion hrun1
        · split at hrun1
          · exact Except.noConfusion hrun1
          · rename_i scoredRaw hscored
            split at hrun1
            · exact Except.noConfusion hrun1
            · rename_i scored2 hrr
              simp only [Except.ok.injEq, Prod.mk.injEq] at hrun1
              obtain ⟨hres, hst⟩ := hrun1
              have hlen : res1.length ≤ limitOf cfg r1 := by
                rw [← hres]
                exact mmrLoop_length O cfg st.table r1.note_id _ _ _ _ _ _ _ _ _ _ _ _
                  (by simp)
              rw [hres] at hst
              refine ⟨by rw [← hst], ?_⟩
              rw [← hst]
              exact (List.take_of_length_le hlen).symm
  obtain ⟨hkey, hval⟩ := hkey1
  simp only [context] at hrun2
  rw [hkey, hck] at hrun2
  rw [if_pos rfl] at hrun2
  simp only [Except.ok.injEq, Prod.mk.injEq] at hrun2
  obtain ⟨hres2, _⟩ := hrun2
  rw [← hres2, hlim]
  exact hval.symm

/-- Witness for C8: a fresh call on a blank note followed by a second call
with a different cursor offset in the same (only) paragraph; the second hits
the cache and both return the same list. -/
theorem context_cache_idempotent_witness :
    ([] : List Snippet) = ([] : List Snippet) :=
  context_cache_idempotent oracleW cfgW ⟨[], none, none, []⟩
    ⟨"n8", "", 0, 1⟩ ⟨"n8", "", 5, 1⟩ [] []
    ⟨[], none, some ("n8", 0, "h"), []⟩ ⟨[], none, some ("n8", 0, "h"), []⟩
    rfl rfl rfl rfl rfl rfl

/-- C3 (amended): a candidate referencing a since-deleted chunk is skipped
without failing the query, but a chunk that is present with its stored
`quality` field missing (or non-numeric) is fatal: the scoring loop aborts
the whole query with the rebuild-index error instead of skipping the
candidate. -/
theorem context_malformed_candidate (O : Oracles) (cfg : Config)
    (reqNote window currentChunkId : String) (windowDim : Nat)
    (table : ChunkTable) (cid : String) (rest : List String) :
    (table.lookup cid = none →
      scoreLoop O cfg reqNote window currentChunkId windowDim table (cid :: rest) =
        scoreLoop O cfg reqNote window currentChunkId windowDim table rest) ∧
    (∀ meta, table.lookup cid = some meta → ¬ cid = currentChunkId →
      ¬ meta.note_id = reqNote → O.lowInfo meta.text = false → meta.quality = none →
      scoreLoop O cfg reqNote window currentChunkId windowDim table (cid :: rest) =
        Except.error
          "Context chunk quality is missing. Rebuild the semantic context index to populate it.") := by
  constructor
  · intro hlk
    have hstep : scoreStep O cfg reqNote window currentChunkId windowDim table cid =
        Except.ok none := by
      unfold scoreStep
      by_cases hcur : cid = currentChunkId
      · rw [if_pos hcur]
      · rw [if_neg hcur, hlk]
    simp only [scoreLoop, hstep]
  · intro meta hlk hcur hnote hlow hq
    have hstep : scoreStep O cfg reqNote window currentChunkId windowDim table cid =
        Except.error
          "Context chunk quality is missing. Rebuild the semantic context index to populate it." := by
      unfold scoreStep
      rw [if_neg hcur]
      simp only [hlk, if_neg hnote, hlow, Bool.false_eq_true, if_false, hq]
    simp only [scoreLoop, hstep]

/-- Witness for C3's amended statement: a dangling candidate id is skipped,
and a present chunk without a quality value aborts the loop. -/
theorem context_malformed_candidate_witness :
    (scoreLoop oracleW cfgW "n" "ab" "n:0:2:0" 1
      [("c1", ⟨"m", "c1", "t", none, [1], []⟩)] ["zz"] =
      scoreLoop oracleW cfgW "n" "ab" "n:0:2:0" 1
        [("c1", ⟨"m", "c1", "t", none, [1], []⟩)] []) ∧
    (scoreLoop oracleW cfgW "n" "ab" "n:0:2:0" 1
      [("c1", ⟨"m", "c1", "t", none, [1], []⟩)] ["c1"] =
      Except.error
        "Context chunk quality is missing. Rebuild the semantic context index to populate it.") :=
  ⟨(context_malformed_candidate oracleW cfgW "n" "ab" "n:0:2:0" 1
      [("c1", ⟨"m", "c1", "t", none, [1], []⟩)] "zz" []).1 rfl,
   (context_malformed_candidate oracleW cfgW "n" "ab" "n:0:2:0" 1
      [("c1", ⟨"m", "c1", "t", none, [1], []⟩)] "c1" []).2
      ⟨"m", "c1", "t", none, [1], []⟩ rfl (by decide) (by decide) rfl rfl⟩

/-- C3 counterexample to the claim as stated: a full `context()` run over a
table containing a live cross-note chunk whose `quality` field is absent
fails with the quality error instead of skipping the malformed candidate. -/
theorem context_missing_quality_counterexample :
    context
      { oracleW with
          chunkBlocksFn := fun _ => [⟨0, 2, "ab"⟩]
          conceptChunks := fun _ => ["c1"] }
      cfgW
      ⟨[("c1", ⟨"m", "c1", "t", none, [1], []⟩)], none, none, []⟩
      ⟨"n", "ab", 0, 7⟩ =
      Except.error
        "Context chunk quality is missing. Rebuild the semantic context index to populate it." :=
  rfl

/-- C9: with the reranker enabled and the top-k/weight tunables at positive
values (their defaults are 50 and 0.35), a reranker that returns no scores
for a nonempty scored list, or a score list whose length differs from the
number of submitted documents, makes `_apply_reranker` raise — the context
query then propagates the error — rather than silently skipping the rerank
step. -/
theorem reranker_malformed_is_error (O : Oracles) (cfg : Config)
    (table : ChunkTable) (window : String) (scored : List Scored)
    (hne : ¬ scored = []) (hen : O.rerankEnabled = true)
    (htu : ¬ (cfg.rerankTopK = 0 ∨ cfg.rerankWeight ≤ 0)) :
    (O.rerank window ((rerankDocPairs table cfg scored).map Prod.snd) = none →
      applyReranker O cfg table window scored =
        Except.error "Reranker returned no scores while enabled.") ∧
    (∀ rs, O.rerank window ((rerankDocPairs table cfg scored).map Prod.snd) = some rs →
      ¬ rs.length = (rerankDocPairs table cfg scored).length →
      applyReranker O cfg table window scored =
        Except.error "Reranker returned mismatched score count.") := by
  have hen2 : ¬ O.rerankEnabled = false := by
    rw [hen]
    simp
  constructor
  · intro hr
    unfold applyReranker
    rw [if_neg hne, if_neg hen2, if_neg htu, hr]
  · intro rs hr hlen
    unfold applyReranker
    rw [if_neg hne, if_neg hen2, if_neg htu, hr]
    exact if_pos hlen

/-- Witness for C9: a one-candidate scored list against a reranker returning
`None`, and one returning an empty score list for one document. -/
theorem reranker_malformed_is_error_witness :
    (applyReranker { oracleW with rerankEnabled := true }
      { cfgW with rerankTopK := 1, rerankWeight := 1 }
      [("c", ⟨"m", "c", "t", some 1, [1], []⟩)] "w" [⟨"c", 1, none, none⟩] =
      Except.error "Reranker returned no scores while enabled.") ∧
    (applyReranker { oracleW with rerankEnabled := true, rerank := fun _ _ => some [] }
      { cfgW with rerankTopK := 1, rerankWeight := 1 }
      [("c", ⟨"m", "c", "t", some 1, [1], []⟩)] "w" [⟨"c", 1, none, none⟩] =
      Except.error "Reranker returned mismatched score count.") :=
  ⟨(reranker_malformed_is_error { oracleW with rerankEnabled := true }
      { cfgW with rerankTopK := 1, rerankWeight := 1 }
      [("c", ⟨"m", "c", "t", some 1, [1], []⟩)] "w" [⟨"c", 1, none, none⟩]
      (by decide) rfl (by decide)).1 rfl,
   (reranker_malformed_is_error
      { oracleW with rerankEnabled := true, rerank := fun _ _ => some [] }
      { cfgW with rerankTopK := 1, rerankWeight := 1 }
      [("c", ⟨"m", "c", "t", some 1, [1], []⟩)] "w" [⟨"c", 1, none, none⟩]
      (by decide) rfl (by decide)).2 [] rfl (by decide)⟩

end Grimoire
